import Mathlib

/-!
# A verification model of `gzip_static`

Shallow embedding of `src/gzip_static/__init__.py`.  File contents are byte
lists, the filesystem is a tree of named entries, and the external gzip
libraries (Python's `gzip`/`zlib` modules and the optional `zopfli` module)
are modelled by a backend record whose fields carry the documented library
contracts (streaming decompression and compress/decompress round trips).
Hash algorithms are modelled by an arbitrary digest function applied to the
concatenation of all bytes fed to the hasher, which is the hashlib contract.
-/

namespace GzipStatic

/-- File contents: a sequence of bytes (each a value below 256 in reality;
the bound plays no role in any of the verified properties). -/
abbrev Bytes := List Nat

/-! ## String helpers mirroring the Python `str` operations used -/

/-- `sfxOf pat l = true` iff `pat` is an initial segment of `l`; used on
reversed character lists to implement `str.endswith`. -/
def sfxOf : List Char → List Char → Bool
  | [], _ => true
  | _ :: _, [] => false
  | c :: cs, d :: ds => c == d && sfxOf cs ds

/-- Python's `s.endswith(t)`. -/
def strEndsWith (s t : String) : Bool := sfxOf t.data.reverse s.data.reverse

/-- Python's `s[:-n]` for `n ≥ 1` (empty result when `len(s) ≤ n`). -/
def strDropRight (s : String) (n : Nat) : String :=
  String.mk (s.data.take (s.data.length - n))

/-- Index of the last occurrence of `c` in `l`; Python's `str.rfind`
(`none` standing for the return value `-1`). -/
def lastIdxOf (c : Char) : List Char → Option Nat
  | [] => none
  | a :: rest =>
    match lastIdxOf c rest with
    | some i => some (i + 1)
    | none => if a == c then some 0 else none

/-- `get_extension` from the source: the filename's extension including the
leading period, implemented like `pathlib.PurePath.suffix` via
`filename.rfind(".")` and the guard `0 < index < len(filename) - 1`. -/
def get_extension (filename : String) : String :=
  match lastIdxOf '.' filename.data with
  | none => ""
  | some index =>
    if 0 < index ∧ index < filename.data.length - 1 then
      String.mk (filename.data.drop index)
    else ""

/-! ## Module constants from the source -/

def DEFAULT_BLOCK_SIZE : Nat := 32 * 1024

/-- `io.DEFAULT_BUFFER_SIZE`: the block size substituted when hashing a
gzipped file. -/
def IO_DEFAULT_BUFFER_SIZE : Nat := 8192

def DEFAULT_COMPRESSION_LEVEL : Nat := 9

/-- Ending states of `compress_idempotent`. -/
def COMPRESSED : Nat := 0
def RECOMPRESSED : Nat := 1
def SKIPPED : Nat := 2
def DELETED : Nat := 3

/-- Zopfli performs in-memory compression, hence the size ceiling. -/
def ZOPFLI_MAXIMUM_SIZE : Nat := 50 * 1024 * 1024

/-! ## Filesystem model

A directory is a list of entries; regular files carry contents.  Paths are
lists of name components (the Python code concatenates them with `/`).
Resolution follows the first entry carrying the sought name, which agrees
with a real filesystem whenever sibling names are distinct (`wf` below). -/

inductive Entry where
  | file (name : String) (content : Bytes)
  | dir (name : String) (children : List Entry)
deriving Repr

abbrev FS := List Entry
abbrev FPath := List String

def entryName : Entry → String
  | .file n _ => n
  | .dir n _ => n

/-- First entry with the given name, as directory-entry resolution does. -/
def entryNamed (name : String) : FS → Option Entry
  | [] => none
  | e :: rest => if entryName e = name then some e else entryNamed name rest

/-- Contents of the regular file at a path (`none`: the `open(path, "rb")`
call would raise). -/
def lookupFile : FS → FPath → Option Bytes
  | _, [] => none
  | es, [n] =>
    match entryNamed n es with
    | some (.file _ c) => some c
    | _ => none
  | es, n :: rest =>
    match entryNamed n es with
    | some (.dir _ ch) => lookupFile ch rest
    | _ => none

/-- `os.path.exists`: a file or directory lives at the path.  The empty path
denotes the directory under scrutiny itself, which exists. -/
def existsPath : FS → FPath → Bool
  | _, [] => true
  | es, [n] => (entryNamed n es).isSome
  | es, n :: rest =>
    match entryNamed n es with
    | some (.dir _ ch) => existsPath ch rest
    | _ => false

/-- Create or overwrite the regular file `name` in one directory listing.
This is a pure tree editor: the caller (`compress_path`) only reaches it
after the `writable` guard below, which mirrors the `IsADirectoryError`
that `gzip.open(..., "wb")` / `Path.write_bytes` raise on a same-named
directory, so the directory branch here is never taken on a write. -/
def writeIn (name : String) (c : Bytes) : FS → FS
  | [] => [.file name c]
  | .file n c₀ :: rest =>
    if n = name then .file n c :: rest else .file n c₀ :: writeIn name c rest
  | .dir n ch :: rest =>
    if n = name then .dir n ch :: rest else .dir n ch :: writeIn name c rest

/-- Apply `f` to the children of the first directory called `name`; a
same-named regular file or a missing directory makes this a no-op.  Writes
only reach it through the `writable` guard in `compress_path`, under which
the whole parent chain exists as directories. -/
def modifyDir (name : String) (f : FS → FS) : FS → FS
  | [] => []
  | e :: rest =>
    if entryName e = name then
      match e with
      | .dir n ch => .dir n (f ch) :: rest
      | .file n c => .file n c :: rest
    else e :: modifyDir name f rest

/-- Write the regular file at a path (create or overwrite). -/
def writeFile (fs : FS) : FPath → Bytes → FS
  | [], _ => fs
  | [n], c => writeIn n c fs
  | n :: m :: p, c => modifyDir n (fun ch => writeFile ch (m :: p) c) fs

/-- Remove the first regular file called `name` from a directory listing
(`os.remove` refuses directories). -/
def removeIn (name : String) : FS → FS
  | [] => []
  | .file n c :: rest =>
    if n = name then rest else .file n c :: removeIn name rest
  | .dir n ch :: rest =>
    if n = name then .dir n ch :: rest else .dir n ch :: removeIn name rest

/-- `os.remove` on a path. -/
def removeFile (fs : FS) : FPath → FS
  | [] => fs
  | [n] => removeIn n fs
  | n :: m :: p => modifyDir n (fun ch => removeFile ch (m :: p)) fs

/-- Well-formed directory tree: sibling names are pairwise distinct, as on a
real filesystem. -/
def wf : FS → Bool
  | [] => true
  | .file n _ :: rest => !((rest.map entryName).contains n) && wf rest
  | .dir n ch :: rest => !((rest.map entryName).contains n) && wf ch && wf rest

/-- Paths at which `open(path, "wb")` succeeds: the parent chain exists as
directories and the final name is not taken by a directory. -/
def writable : FS → FPath → Bool
  | _, [] => false
  | es, [n] =>
    match entryNamed n es with
    | some (.dir _ _) => false
    | _ => true
  | es, n :: rest =>
    match entryNamed n es with
    | some (.dir _ ch) => writable ch rest
    | _ => false

/-! ## Path helpers -/

/-- Name component of the directory entry a path leads to. -/
def lastName (p : FPath) : String := p.getLastD ""

/-- The companion path: `os.fspath(filepath) + ".gz"`. -/
def appendGz : FPath → FPath
  | [] => []
  | [n] => [n ++ ".gz"]
  | d :: rest => d :: appendGz rest

/-- The path spelled by `dir_entry.path[:-3]` for a `.gz` entry: strip the
final three characters of the name; when nothing remains the string ends in
`/`, i.e. denotes the containing directory. -/
def stripGzPath : FPath → FPath
  | [] => []
  | [n] => if strDropRight n 3 = "" then [] else [strDropRight n 3]
  | d :: rest => d :: stripGzPath rest

/-- The path string accumulated by the recursive scan: `pre/c₁/…/cₖ`. -/
def pathStr (pre : String) : FPath → String
  | [] => pre
  | n :: rest => pathStr (pre ++ "/" ++ n) rest

/-! ## The gzip backend

The compression libraries are external to the repository.  They are
modelled by a record of pure functions together with their documented
contracts: `gunzip` is incremental (feeding a stream piecewise yields
prefixes of the full decompression, the `zlib.decompressobj` behaviour) and
inverts both compressors.  `zopfli = none` models the optional dependency
being absent. -/

structure GzipBackend where
  /-- Streaming gzip compression at a level: `gzip.open(..., "wb")` plus
  block writes produce the compression of the concatenated stream. -/
  std : Nat → Bytes → Bytes
  /-- `zopfli.gzip.compress` when the module is installed. -/
  zopfli : Option (Bytes → Bytes)
  /-- Logical gzip decompression (`zlib` with `wbits=31`). -/
  gunzip : Bytes → Bytes
  /-- No output before any input. -/
  gunzip_nil : gunzip [] = []
  /-- Incrementality: extending the input stream extends the output. -/
  gunzip_ext : ∀ s t : Bytes, ∃ u, gunzip (s ++ t) = gunzip s ++ u
  /-- Round trip for the standard compressor, at every level. -/
  std_rt : ∀ (lvl : Nat) (b : Bytes), gunzip (std lvl b) = b
  /-- Round trip for zopfli output. -/
  zopfli_rt : ∀ z, zopfli = some z → ∀ b : Bytes, gunzip (z b) = b

/-! ## Chunked reading and hashing -/

/-- Fuel-indexed splitting of a byte string into blocks of size `k`; with
`fuel ≥ l.length` and `k ≠ 0` this is exactly the sequence of results of
`input_h.read(k)`.  `read(0)` returns `b""` at once, ending the loop, hence
`k = 0` yields no blocks. -/
def chunksGo (k : Nat) : Nat → Bytes → List Bytes
  | 0, _ => []
  | _ + 1, [] => []
  | fuel + 1, l => l.take k :: chunksGo k fuel (l.drop k)

/-- The blocks produced by repeatedly calling `read(k)` on a file holding
`l`. -/
def chunksOf (k : Nat) (l : Bytes) : List Bytes :=
  if k = 0 then [] else chunksGo k l.length l

/-- Concatenation of a sequence of blocks. -/
def joinBlocks : List Bytes → Bytes
  | [] => []
  | b :: bs => b ++ joinBlocks bs

/-- Output of feeding blocks, in order, to a `zlib` decompressor object that
has already consumed `consumed`: each step emits whatever the decompression
of the total input adds beyond what was already emitted. -/
def decompStream (g : Bytes → Bytes) (consumed : Bytes) : List Bytes → Bytes
  | [] => []
  | blk :: rest =>
    (g (consumed ++ blk)).drop (g consumed).length ++
      decompStream g (consumed ++ blk) rest

/-- `hash_file_contents` from the source: read the file at `filepath`
(holding `content`) in blocks and feed the hasher; paths ending in `.gz`
are routed through the streaming decompressor, with the block size forced
to `io.DEFAULT_BUFFER_SIZE`.  The hasher is hashlib-compatible, so its
digest is a fixed function `H` of the concatenation of all update calls. -/
def hash_file_contents (g H : Bytes → Bytes) (filepath : String)
    (content : Bytes) (block_size : Nat) : Bytes :=
  let is_gzip := strEndsWith filepath ".gz"
  if is_gzip then
    H (decompStream g [] (chunksOf IO_DEFAULT_BUFFER_SIZE content))
  else
    H (joinBlocks (chunksOf block_size content))

/-- Hash the file at a path.  Only the final name component decides the
`.gz` routing, which coincides with `os.fspath(filepath).endswith(".gz")`
because the separator `/` precedes the final component. -/
def hashPath (be : GzipBackend) (H : Bytes → Bytes) (fs : FS) (p : FPath)
    (block_size : Nat) : Option Bytes :=
  (lookupFile fs p).map
    (fun c => hash_file_contents be.gunzip H (lastName p) c block_size)

/-! ## The compressor -/

/-- Exceptions that escape the modelled fragment. `moduleNotFound` is the
`ModuleNotFoundError` raised when zopfli is requested but absent;
`fileNotFound` collapses the OS-level errors on a read (missing file, or a
directory where a file is required); `isADirectory` is the
`IsADirectoryError` raised when a write target is held by a directory. -/
inductive PyError where
  | moduleNotFound
  | fileNotFound
  | isADirectory
deriving Repr, DecidableEq

/-- `compress_path` from the source.  Returns the new filesystem and
whether the oversize warning was emitted.  Level 11 selects zopfli: absence
of the module raises before any file access; a source larger than
`ZOPFLI_MAXIMUM_SIZE` warns and falls back to the streaming compressor at
level 9; otherwise the whole file is compressed in memory.  Any other level
streams the source in `block_size` blocks through `gzip.open`, whose output
is the standard compression of the concatenated blocks.  In every branch
the companion is written by `Path.write_bytes` or `gzip.open(..., "wb")`,
which raise `IsADirectoryError` when a directory occupies the target path:
a non-`writable` target is an error, never a silent no-op.  (`os.utime`
and `os.chmod` performed by the caller are not part of the content
model.) -/
def compress_path (be : GzipBackend) (fs : FS) (filepath : FPath)
    (compresslevel : Nat) (block_size : Nat) : Except PyError (FS × Bool) :=
  if compresslevel = 11 then
    match be.zopfli with
    | none => .error .moduleNotFound
    | some z =>
      match lookupFile fs filepath with
      | none => .error .fileNotFound
      | some data =>
        if data.length > ZOPFLI_MAXIMUM_SIZE then
          if writable fs (appendGz filepath) then
            .ok (writeFile fs (appendGz filepath)
              (be.std DEFAULT_COMPRESSION_LEVEL
                (joinBlocks (chunksOf block_size data))), true)
          else .error .isADirectory
        else
          if writable fs (appendGz filepath) then
            .ok (writeFile fs (appendGz filepath) (z data), false)
          else .error .isADirectory
  else
    match lookupFile fs filepath with
    | none => .error .fileNotFound
    | some data =>
      if writable fs (appendGz filepath) then
        .ok (writeFile fs (appendGz filepath)
          (be.std compresslevel (joinBlocks (chunksOf block_size data))),
          false)
      else .error .isADirectory

/-! ## The sync engine -/

/-- `compress_idempotent` from the source: compress unless an up-to-date
companion `.gz` already exists.  Returns the action constant together with
the updated filesystem. -/
def compress_idempotent (be : GzipBackend) (H : Bytes → Bytes) (fs : FS)
    (filepath : FPath) (compresslevel : Nat) (force : Bool) :
    Except PyError (Nat × FS) :=
  let gzipped_path := appendGz filepath
  let recompress :=
    (compress_path be fs filepath compresslevel DEFAULT_BLOCK_SIZE).map
      (fun fw => (RECOMPRESSED, fw.1))
  if existsPath fs gzipped_path then
    if force then recompress
    else
      match hashPath be H fs filepath DEFAULT_BLOCK_SIZE,
          hashPath be H fs gzipped_path DEFAULT_BLOCK_SIZE with
      | some file_hash, some gzipped_hash =>
        if file_hash = gzipped_hash then .ok (SKIPPED, fs)
        else recompress
      | _, _ => .error .fileNotFound
  else
    (compress_path be fs filepath compresslevel DEFAULT_BLOCK_SIZE).map
      (fun fw => (COMPRESSED, fw.1))

/-- The result named tuple: counts of compressed, recompressed, skipped and
deleted gzip files. -/
structure GzipStaticResult where
  created : Nat
  updated : Nat
  skipped : Nat
  deleted : Nat
deriving Repr, DecidableEq

/-- `results[result] += 1` for the action constants. -/
def bump (res : GzipStaticResult) : Nat → GzipStaticResult
  | 0 => { res with created := res.created + 1 }
  | 1 => { res with updated := res.updated + 1 }
  | 2 => { res with skipped := res.skipped + 1 }
  | 3 => { res with deleted := res.deleted + 1 }
  | _ => res

/-- `find_static_files` from the source: recursive scan yielding every
regular file whose name does not end in `.gz` and whose extension is in the
set, interleaved with the recursion into subdirectories. -/
def find_static_files (extensions : List String) : FS → List FPath
  | [] => []
  | .file n _ :: rest =>
    (if ¬ strEndsWith n ".gz" ∧ get_extension n ∈ extensions then [[n]]
     else []) ++ find_static_files extensions rest
  | .dir n ch :: rest =>
    (find_static_files extensions ch).map (n :: ·) ++
      find_static_files extensions rest

/-- The candidate paths of `find_orphaned_files`: the recursive `scandir`
scan yielding every regular file whose name ends in `.gz` and whose path
string with the trailing three characters stripped (`dir_entry.path[:-3]`)
carries a tracked extension — the generator's checks that depend only on
the path, not on what else exists.  `pre` is the path string of the
directory being listed. -/
def orphanScan (extensions : List String) (pre : String) : FS → List FPath
  | [] => []
  | .file n _ :: rest =>
    (if strEndsWith n ".gz" ∧
        get_extension (strDropRight (pre ++ "/" ++ n) 3) ∈ extensions
     then [[n]] else []) ++ orphanScan extensions pre rest
  | .dir n ch :: rest =>
    (orphanScan extensions (pre ++ "/" ++ n) ch).map (n :: ·) ++
      orphanScan extensions pre rest

/-- `find_orphaned_files` from the source, on a tree that nothing mutates:
of the candidate `.gz` files, those whose stripped path fails the
`os.path.exists(parent_file)` check — the stripped path string is resolved
from the scanned root (a name of exactly `.gz` strips to the containing
directory, which exists). -/
def find_orphaned_files (extensions : List String) (pre : String)
    (fs : FS) : List FPath :=
  (orphanScan extensions pre fs).filter
    (fun q => !existsPath fs (stripGzPath q))

/-- The per-file loop of `gzip_static` over the discovered static files. -/
def runCompress (be : GzipBackend) (H : Bytes → Bytes) (compresslevel : Nat)
    (force : Bool) : List FPath → FS → GzipStaticResult →
    Except PyError (GzipStaticResult × FS)
  | [], fs, res => .ok (res, fs)
  | p :: ps, fs, res =>
    match compress_idempotent be H fs p compresslevel force with
    | .error e => .error e
    | .ok (r, fs') => runCompress be H compresslevel force ps fs' (bump res r)

/-- The orphan-removal loop of `gzip_static`, consuming the
`find_orphaned_files` generator interleaved with `os.remove`: each
candidate's `os.path.exists` check runs against the filesystem as it is
when the generator is pulled, i.e. after the earlier deletions — deleting
`x.html.gz` can orphan a later `x.html.gz.gz` mid-run.  Each deletion
increments the counter once. -/
def removeOrphansRun : List FPath → FS → Nat → FS × Nat
  | [], fs, d => (fs, d)
  | q :: qs, fs, d =>
    if existsPath fs (stripGzPath q) then removeOrphansRun qs fs d
    else removeOrphansRun qs (removeFile fs q) (d + 1)

/-- `gzip_static` from the source.  The static files are discovered up
front: the compression loop's writes only create or overwrite `.gz`
entries, which the lazy scan ignores, so the snapshot is the sequence the
generator yields.  The orphan candidates are likewise the scan of the
filesystem left by the compression pass — deletions only remove `.gz`
files the generator has already yielded, from directories already listed,
so they never change a later listing — while each candidate's existence
check runs live, interleaved with the deletions. -/
def gzip_static (be : GzipBackend) (H : Bytes → Bytes) (fs : FS)
    (extensions : List String) (compresslevel : Nat) (force : Bool)
    (remove_orphans : Bool) (pre : String) :
    Except PyError (GzipStaticResult × FS) :=
  match runCompress be H compresslevel force
      (find_static_files extensions fs) fs ⟨0, 0, 0, 0⟩ with
  | .error e => .error e
  | .ok (res, fs₁) =>
    if remove_orphans then
      let fd := removeOrphansRun (orphanScan extensions pre fs₁)
        fs₁ res.deleted
      .ok ({ res with deleted := fd.2 }, fd.1)
    else .ok (res, fs₁)

/-! ## Derived notions and concrete instances used in the statements -/

/-- The source file has a companion whose decompressed content carries the
same digest (the state `compress_idempotent` leaves behind and later skips
on). -/
def companionUpToDate (be : GzipBackend) (H : Bytes → Bytes) (fs : FS)
    (p : FPath) : Prop :=
  ∃ c gzc, lookupFile fs p = some c ∧
    lookupFile fs (appendGz p) = some gzc ∧ H c = H (be.gunzip gzc)

/-- Identity codec: a concrete lawful backend witnessing the library
contracts. -/
def idGzip : GzipBackend where
  std := fun _ b => b
  zopfli := some (fun b => b)
  gunzip := fun b => b
  gunzip_nil := rfl
  gunzip_ext := fun _ t => ⟨t, rfl⟩
  std_rt := fun _ _ => rfl
  zopfli_rt := by intro z hz b; cases hz; rfl

/-- Identity codec with the optional zopfli module absent. -/
def noZopfli : GzipBackend where
  std := fun _ b => b
  zopfli := none
  gunzip := fun b => b
  gunzip_nil := rfl
  gunzip_ext := fun _ t => ⟨t, rfl⟩
  std_rt := fun _ _ => rfl
  zopfli_rt := by intro z hz _; cases hz

/-- A lawful backend whose two compressors produce distinguishable output
(`0`-tagged standard stream, `1`-tagged zopfli stream). -/
def tagGzip : GzipBackend where
  std := fun _ b => 0 :: b
  zopfli := some (fun b => 1 :: b)
  gunzip := fun b => b.tail
  gunzip_nil := rfl
  gunzip_ext := by
    intro s t
    cases s with
    | nil => exact ⟨t.tail, by simp⟩
    | cons a s => exact ⟨t, by simp⟩
  std_rt := fun _ _ => rfl
  zopfli_rt := by intro z hz b; cases hz; rfl

/-- The spec's example literal, as bytes. -/
def testData : Bytes :=
  "This is a test string with some compressable data.".data.map Char.toNat

/-! ## Basic string lemmas -/

theorem sfxOf_self_append (pat rest : List Char) :
    sfxOf pat (pat ++ rest) = true := by
  induction pat with
  | nil => rfl
  | cons c cs ih => simp [sfxOf, ih]

theorem strEndsWith_append_gz (n : String) :
    strEndsWith (n ++ ".gz") ".gz" = true := by
  show sfxOf _ ((n ++ ".gz").data.reverse) = true
  have hdata : (n ++ ".gz").data = n.data ++ ".gz".data := rfl
  rw [hdata, List.reverse_append]
  exact sfxOf_self_append _ _

/-! ## Chunked reading -/

theorem joinBlocks_chunksGo (k : Nat) (hk : k ≠ 0) :
    ∀ (fuel : Nat) (l : Bytes), l.length ≤ fuel →
      joinBlocks (chunksGo k fuel l) = l := by
  intro fuel
  induction fuel with
  | zero =>
    intro l hl
    rw [Nat.le_zero] at hl
    rw [List.eq_nil_of_length_eq_zero hl]
    rfl
  | succ m ih =>
    intro l hl
    match l with
    | [] => rfl
    | a :: t =>
      show joinBlocks ((a :: t).take k :: chunksGo k m ((a :: t).drop k)) = _
      rw [joinBlocks, ih ((a :: t).drop k) ?_, List.take_append_drop]
      rw [List.length_drop]
      have hl' : t.length + 1 ≤ m + 1 := by simpa using hl
      have hk1 : 1 ≤ k := Nat.one_le_iff_ne_zero.mpr hk
      simp only [List.length_cons]
      omega

theorem joinBlocks_chunksOf (k : Nat) (hk : k ≠ 0) (l : Bytes) :
    joinBlocks (chunksOf k l) = l := by
  rw [chunksOf, if_neg hk]
  exact joinBlocks_chunksGo k hk l.length l (Nat.le_refl _)

theorem decompStream_spec (g : Bytes → Bytes)
    (hext : ∀ s t : Bytes, ∃ u, g (s ++ t) = g s ++ u) :
    ∀ (blocks : List Bytes) (consumed : Bytes),
      g consumed ++ decompStream g consumed blocks =
        g (consumed ++ joinBlocks blocks) := by
  intro blocks
  induction blocks with
  | nil => intro consumed; simp [decompStream, joinBlocks]
  | cons blk rest ih =>
    intro consumed
    obtain ⟨u, hu⟩ := hext consumed blk
    calc g consumed ++ decompStream g consumed (blk :: rest)
        = g consumed ++ ((g (consumed ++ blk)).drop (g consumed).length ++
            decompStream g (consumed ++ blk) rest) := rfl
      _ = (g consumed ++ (g (consumed ++ blk)).drop (g consumed).length) ++
            decompStream g (consumed ++ blk) rest := by
          rw [List.append_assoc]
      _ = g (consumed ++ blk) ++ decompStream g (consumed ++ blk) rest := by
          rw [hu, List.drop_left]
      _ = g ((consumed ++ blk) ++ joinBlocks rest) := ih (consumed ++ blk)
      _ = g (consumed ++ joinBlocks (blk :: rest)) := by
          rw [List.append_assoc]; rfl

/-- The digest of `hash_file_contents` is the hash of the file's logical
content — decompressed bytes for `.gz` paths, raw bytes otherwise — for any
positive block size. -/
theorem hash_file_contents_eq (g H : Bytes → Bytes) (hnil : g [] = [])
    (hext : ∀ s t : Bytes, ∃ u, g (s ++ t) = g s ++ u)
    (filepath : String) (content : Bytes) (block_size : Nat)
    (hbs : block_size ≠ 0) :
    hash_file_contents g H filepath content block_size =
      if strEndsWith filepath ".gz" then H (g content) else H content := by
  rw [hash_file_contents]
  by_cases hgz : strEndsWith filepath ".gz"
  · simp only [hgz, if_true]
    congr 1
    have h := decompStream_spec g hext
      (chunksOf IO_DEFAULT_BUFFER_SIZE content) []
    rw [hnil] at h
    simp only [List.nil_append] at h
    rw [h, joinBlocks_chunksOf]
    decide
  · simp only [hgz, if_false, Bool.false_eq_true]
    rw [joinBlocks_chunksOf _ hbs]

/-! ## Entry-level filesystem lemmas -/

theorem entryNamed_writeIn_ne (n m : String) (c : Bytes) (es : FS)
    (h : m ≠ n) : entryNamed m (writeIn n c es) = entryNamed m es := by
  induction es with
  | nil => simp [writeIn, entryNamed, entryName, Ne.symm h]
  | cons e rest ih =>
    cases e with
    | file n₀ c₀ =>
      by_cases hn : n₀ = n
      · subst hn
        simp [writeIn, entryNamed, entryName, Ne.symm h]
      · by_cases hm : n₀ = m
        · simp [writeIn, entryNamed, entryName, hn, hm, h]
        · simp [writeIn, entryNamed, entryName, hn, hm, ih]
    | dir n₀ ch =>
      by_cases hn : n₀ = n
      · simp [writeIn, entryNamed, entryName, hn]
      · by_cases hm : n₀ = m
        · simp [writeIn, entryNamed, entryName, hn, hm, h]
        · simp [writeIn, entryNamed, entryName, hn, hm, ih]

/-- Resolution of the written name: a same-named directory survives, any
other prior state becomes the fresh regular file. -/
theorem entryNamed_writeIn_self (n : String) (c : Bytes) (es : FS) :
    entryNamed n (writeIn n c es) =
      match entryNamed n es with
      | some (.dir m ch) => some (.dir m ch)
      | _ => some (.file n c) := by
  induction es with
  | nil => simp [writeIn, entryNamed, entryName]
  | cons e rest ih =>
    cases e with
    | file n₀ c₀ =>
      by_cases hn : n₀ = n
      · subst hn
        simp [writeIn, entryNamed, entryName]
      · simp [writeIn, entryNamed, entryName, hn, ih]
    | dir n₀ ch =>
      by_cases hn : n₀ = n
      · subst hn
        simp [writeIn, entryNamed, entryName]
      · simp [writeIn, entryNamed, entryName, hn, ih]

theorem entryNamed_modifyDir_ne (n m : String) (f : FS → FS) (es : FS)
    (h : m ≠ n) : entryNamed m (modifyDir n f es) = entryNamed m es := by
  induction es with
  | nil => simp [modifyDir]
  | cons e rest ih =>
    cases e with
    | file n₀ c₀ =>
      by_cases hn : n₀ = n
      · subst hn
        simp [modifyDir, entryNamed, entryName, Ne.symm h]
      · by_cases hm : n₀ = m
        · simp [modifyDir, entryNamed, entryName, hn, hm, h]
        · simp [modifyDir, entryNamed, entryName, hn, hm, ih]
    | dir n₀ ch =>
      by_cases hn : n₀ = n
      · subst hn
        simp [modifyDir, entryNamed, entryName, Ne.symm h]
      · by_cases hm : n₀ = m
        · simp [modifyDir, entryNamed, entryName, hn, hm, h]
        · simp [modifyDir, entryNamed, entryName, hn, hm, ih]

theorem entryNamed_modifyDir_self (n : String) (f : FS → FS) (es : FS) :
    entryNamed n (modifyDir n f es) =
      match entryNamed n es with
      | some (.dir m ch) => some (.dir m (f ch))
      | other => other := by
  induction es with
  | nil => simp [modifyDir, entryNamed]
  | cons e rest ih =>
    cases e with
    | file n₀ c₀ =>
      by_cases hn : n₀ = n
      · subst hn
        simp [modifyDir, entryNamed, entryName]
      · simp [modifyDir, entryNamed, entryName, hn, ih]
    | dir n₀ ch =>
      by_cases hn : n₀ = n
      · subst hn
        simp [modifyDir, entryNamed, entryName]
      · simp [modifyDir, entryNamed, entryName, hn, ih]

theorem names_modifyDir (n : String) (f : FS → FS) (es : FS) :
    (modifyDir n f es).map entryName = es.map entryName := by
  induction es with
  | nil => simp [modifyDir]
  | cons e rest ih =>
    cases e with
    | file n₀ c₀ =>
      by_cases hn : n₀ = n
      · subst hn
        simp [modifyDir, entryName]
      · simp [modifyDir, entryName, hn, ih]
    | dir n₀ ch =>
      by_cases hn : n₀ = n
      · subst hn
        simp [modifyDir, entryName]
      · simp [modifyDir, entryName, hn, ih]

/-! ## Path-level filesystem lemmas -/

theorem appendGz_pair (n m : String) (q : List String) :
    appendGz (n :: m :: q) = n :: appendGz (m :: q) := by
  simp [appendGz]

theorem lookupFile_pair (es : FS) (n m : String) (q : List String) :
    lookupFile es (n :: m :: q) =
      match entryNamed n es with
      | some (.dir _ ch) => lookupFile ch (m :: q)
      | _ => none := by
  simp [lookupFile]

theorem lookupFile_single (es : FS) (n : String) :
    lookupFile es [n] =
      match entryNamed n es with
      | some (.file _ c) => some c
      | _ => none := by
  simp [lookupFile]

theorem existsPath_pair (es : FS) (n m : String) (q : List String) :
    existsPath es (n :: m :: q) =
      match entryNamed n es with
      | some (.dir _ ch) => existsPath ch (m :: q)
      | _ => false := by
  simp [existsPath]

theorem existsPath_single (es : FS) (n : String) :
    existsPath es [n] = (entryNamed n es).isSome := by
  simp [existsPath]

theorem writable_pair (es : FS) (n m : String) (q : List String) :
    writable es (n :: m :: q) =
      match entryNamed n es with
      | some (.dir _ ch) => writable ch (m :: q)
      | _ => false := by
  simp [writable]

theorem writable_single (es : FS) (n : String) :
    writable es [n] =
      match entryNamed n es with
      | some (.dir _ _) => false
      | _ => true := by
  simp [writable]

theorem lookupFile_writeFile_self (t : FPath) (c : Bytes) :
    ∀ fs : FS, writable fs t = true →
      lookupFile (writeFile fs t c) t = some c := by
  induction t with
  | nil => intro fs hw; simp [writable] at hw
  | cons n rest ih =>
    intro fs hw
    cases rest with
    | nil =>
      have h := entryNamed_writeIn_self n c fs
      cases hE : entryNamed n fs with
      | none =>
        rw [hE] at h
        simp only [writeFile]
        simp only at h
        simp [lookupFile, h]
      | some e =>
        cases e with
        | file n₀ c₀ =>
          rw [hE] at h
          simp only [writeFile]
          simp only at h
          simp [lookupFile, h]
        | dir n₀ ch => simp [writable, hE] at hw
    | cons m p =>
      have h := entryNamed_modifyDir_self n
        (fun ch => writeFile ch (m :: p) c) fs
      cases hE : entryNamed n fs with
      | none => simp [writable, hE] at hw
      | some e =>
        cases e with
        | file n₀ c₀ => simp [writable, hE] at hw
        | dir n₀ ch =>
          rw [hE] at h
          simp only at h
          simp only [writeFile, lookupFile, h]
          exact ih ch (by simpa [writable, hE] using hw)

/-- Writing one path does not disturb the file visible at any other. -/
theorem lookupFile_writeFile_ne (t : FPath) (c : Bytes) :
    ∀ (fs : FS) (q : FPath), q ≠ t →
      lookupFile (writeFile fs t c) q = lookupFile fs q := by
  induction t with
  | nil => intro fs q _; rfl
  | cons n rest ih =>
    intro fs q hq
    cases rest with
    | nil =>
      cases q with
      | nil => rfl
      | cons m q' =>
        by_cases hm : m = n
        · subst hm
          cases q' with
          | nil => exact absurd rfl hq
          | cons m₂ q₂ =>
            have h := entryNamed_writeIn_self m c fs
            cases hE : entryNamed m fs with
            | none =>
              rw [hE] at h
              simp only at h
              simp only [writeFile, lookupFile, h, hE]
            | some e =>
              cases e with
              | file n₀ c₀ =>
                rw [hE] at h
                simp only at h
                simp only [writeFile, lookupFile, h, hE]
              | dir n₀ ch =>
                rw [hE] at h
                simp only at h
                simp only [writeFile, lookupFile, h, hE]
        · have h := entryNamed_writeIn_ne n m c fs hm
          cases q' with
          | nil => simp only [writeFile, lookupFile, h]
          | cons m₂ q₂ => simp only [writeFile, lookupFile, h]
    | cons m₁ p =>
      cases q with
      | nil => rfl
      | cons m q' =>
        by_cases hm : m = n
        · subst hm
          have h := entryNamed_modifyDir_self m
            (fun ch => writeFile ch (m₁ :: p) c) fs
          cases hE : entryNamed m fs with
          | none =>
            rw [hE] at h
            simp only at h
            cases q' with
            | nil => simp only [writeFile, lookupFile, h, hE]
            | cons m₂ q₂ => simp only [writeFile, lookupFile, h, hE]
          | some e =>
            cases e with
            | file n₀ c₀ =>
              rw [hE] at h
              simp only at h
              cases q' with
              | nil => simp only [writeFile, lookupFile, h, hE]
              | cons m₂ q₂ => simp only [writeFile, lookupFile, h, hE]
            | dir n₀ ch =>
              rw [hE] at h
              simp only at h
              cases q' with
              | nil => simp only [writeFile, lookupFile, h, hE]
              | cons m₂ q₂ =>
                simp only [writeFile, lookupFile, h, hE]
                exact ih ch (m₂ :: q₂) (fun he => hq (by rw [he]))
        · have h := entryNamed_modifyDir_ne n m
            (fun ch => writeFile ch (m₁ :: p) c) fs hm
          cases q' with
          | nil => simp only [writeFile, lookupFile, h]
          | cons m₂ q₂ => simp only [writeFile, lookupFile, h]

theorem existsPath_of_lookup (q : FPath) :
    ∀ (fs : FS) (c : Bytes), lookupFile fs q = some c →
      existsPath fs q = true := by
  induction q with
  | nil => intro fs c h; simp [lookupFile] at h
  | cons n q' ih =>
    intro fs c h
    cases q' with
    | nil =>
      cases hE : entryNamed n fs with
      | none => rw [lookupFile_single, hE] at h; exact absurd h (by simp)
      | some e => simp [existsPath, hE]
    | cons m q₂ =>
      cases hE : entryNamed n fs with
      | none => rw [lookupFile_pair, hE] at h; exact absurd h (by simp)
      | some e =>
        cases e with
        | file n₀ c₀ => rw [lookupFile_pair, hE] at h; exact absurd h (by simp)
        | dir n₀ ch =>
          rw [lookupFile_pair, hE] at h
          rw [existsPath_pair, hE]
          exact ih ch c h

/-- A looked-up regular file sits at a writable path (overwriting it is
possible). -/
theorem writable_of_lookup (q : FPath) :
    ∀ (fs : FS) (c : Bytes), lookupFile fs q = some c →
      writable fs q = true := by
  induction q with
  | nil => intro fs c h; simp [lookupFile] at h
  | cons n q' ih =>
    intro fs c h
    cases q' with
    | nil =>
      cases hE : entryNamed n fs with
      | none => simp [writable, hE]
      | some e =>
        cases e with
        | file n₀ c₀ => simp [writable, hE]
        | dir n₀ ch => rw [lookupFile_single, hE] at h; exact absurd h (by simp)
    | cons m q₂ =>
      cases hE : entryNamed n fs with
      | none => rw [lookupFile_pair, hE] at h; exact absurd h (by simp)
      | some e =>
        cases e with
        | file n₀ c₀ => rw [lookupFile_pair, hE] at h; exact absurd h (by simp)
        | dir n₀ ch =>
          rw [lookupFile_pair, hE] at h
          rw [writable_pair, hE]
          exact ih ch c h

/-- A fresh companion position (same parent directory as an existing file,
name free) is writable. -/
theorem writable_appendGz (p : FPath) :
    ∀ (fs : FS) (c : Bytes), lookupFile fs p = some c →
      existsPath fs (appendGz p) = false →
      writable fs (appendGz p) = true := by
  induction p with
  | nil => intro fs c h _; simp [lookupFile] at h
  | cons n q' ih =>
    intro fs c h hE
    cases q' with
    | nil =>
      rw [appendGz] at hE ⊢
      rw [existsPath] at hE
      cases hG : entryNamed (n ++ ".gz") fs with
      | none => simp [writable, hG]
      | some e => rw [hG] at hE; simp at hE
    | cons m q₂ =>
      rw [appendGz_pair] at hE ⊢
      have hgz : appendGz (m :: q₂) ≠ [] := by
        cases q₂ with
        | nil => simp [appendGz]
        | cons a b => simp [appendGz]
      obtain ⟨g₀, gs, hg⟩ : ∃ g₀ gs, appendGz (m :: q₂) = g₀ :: gs := by
        cases hh : appendGz (m :: q₂) with
        | nil => exact absurd hh hgz
        | cons a b => exact ⟨a, b, rfl⟩
      rw [hg] at hE ⊢
      cases hEn : entryNamed n fs with
      | none => rw [lookupFile_pair, hEn] at h; exact absurd h (by simp)
      | some e =>
        cases e with
        | file n₀ c₀ => rw [lookupFile_pair, hEn] at h; exact absurd h (by simp)
        | dir n₀ ch =>
          rw [lookupFile_pair, hEn] at h
          rw [existsPath_pair, hEn] at hE
          rw [writable_pair, hEn]
          rw [← hg] at hE ⊢
          exact ih ch c h hE

/-! ## Name and path lemmas -/

theorem strExt {s t : String} (h : s.data = t.data) : s = t := by
  cases s; cases t; exact congrArg String.mk h

theorem strAppend_data (s t : String) : (s ++ t).data = s.data ++ t.data :=
  rfl

theorem strAppend_cancel {a b : String} (t : String)
    (h : a ++ t = b ++ t) : a = b := by
  apply strExt
  have hd : a.data ++ t.data = b.data ++ t.data := by
    rw [← strAppend_data, ← strAppend_data, h]
  exact List.append_cancel_right hd

theorem lastName_single (n : String) : lastName [n] = n := rfl

theorem lastName_cons (d : String) (q : FPath) (hq : q ≠ []) :
    lastName (d :: q) = lastName q := by
  cases q with
  | nil => exact absurd rfl hq
  | cons a b =>
    show (d :: a :: b).getLastD "" = (a :: b).getLastD ""
    rw [List.getLastD_eq_getLast?, List.getLastD_eq_getLast?,
      List.getLast?_cons_cons]

theorem appendGz_ne_nil (p : FPath) (hp : p ≠ []) : appendGz p ≠ [] := by
  cases p with
  | nil => exact absurd rfl hp
  | cons n q =>
    cases q with
    | nil => simp [appendGz]
    | cons a b => simp [appendGz_pair]

theorem lastName_appendGz (p : FPath) (hp : p ≠ []) :
    lastName (appendGz p) = lastName p ++ ".gz" := by
  induction p with
  | nil => exact absurd rfl hp
  | cons n q ih =>
    cases q with
    | nil => rfl
    | cons a b =>
      rw [appendGz_pair, lastName_cons n (a :: b) (by simp),
        lastName_cons n (appendGz (a :: b)) (appendGz_ne_nil _ (by simp))]
      exact ih (by simp)

theorem appendGz_inj (p : FPath) :
    ∀ q : FPath, p ≠ [] → q ≠ [] → appendGz p = appendGz q → p = q := by
  induction p with
  | nil => intro q hp _ _; exact absurd rfl hp
  | cons n p' ih =>
    intro q _ hq h
    cases q with
    | nil => exact absurd rfl hq
    | cons m q' =>
      cases p' with
      | nil =>
        cases q' with
        | nil =>
          rw [appendGz, appendGz] at h
          have hnm : n ++ ".gz" = m ++ ".gz" := by
            simpa using h
          rw [strAppend_cancel ".gz" hnm]
        | cons a b =>
          rw [appendGz, appendGz_pair] at h
          have := appendGz_ne_nil (a :: b) (by simp)
          simp at h
          exact absurd h.2 this
      | cons a b =>
        cases q' with
        | nil =>
          rw [appendGz_pair, appendGz] at h
          have := appendGz_ne_nil (a :: b) (by simp)
          simp at h
          exact absurd h.2 this
        | cons a₂ b₂ =>
          rw [appendGz_pair, appendGz_pair] at h
          simp only [List.cons.injEq] at h
          rw [h.1, ih (a₂ :: b₂) (by simp) (by simp) h.2]

/-- The companion of a non-`.gz` file is a different path. -/
theorem ne_appendGz_of_not_gz (p q : FPath) (hq : q ≠ [])
    (hp : strEndsWith (lastName p) ".gz" = false) : p ≠ appendGz q := by
  intro he
  have : strEndsWith (lastName p) ".gz" = true := by
    rw [he, lastName_appendGz q hq]
    exact strEndsWith_append_gz _
  rw [hp] at this
  exact absurd this (by simp)

/-! ## Lemmas about `entryNamed`, names and `wf` -/

theorem entryNamed_name (n : String) (es : FS) (e : Entry)
    (h : entryNamed n es = some e) : entryName e = n := by
  induction es with
  | nil => simp [entryNamed] at h
  | cons e₀ rest ih =>
    rw [entryNamed] at h
    by_cases h₀ : entryName e₀ = n
    · rw [if_pos h₀] at h
      cases h
      exact h₀
    · rw [if_neg h₀] at h
      exact ih h

theorem entryNamed_eq_none_iff (n : String) (es : FS) :
    entryNamed n es = none ↔ n ∉ es.map entryName := by
  induction es with
  | nil => simp [entryNamed]
  | cons e rest ih =>
    rw [entryNamed]
    by_cases h₀ : entryName e = n
    · simp [h₀]
    · simp only [if_neg h₀, List.map_cons, List.mem_cons, ih]
      constructor
      · intro h hc
        rcases hc with hc | hc
        · exact h₀ hc.symm
        · exact h hc
      · intro h hc
        exact h (Or.inr hc)

theorem wf_cons (e : Entry) (rest : FS) :
    wf (e :: rest) = true ↔
      ((rest.map entryName).contains (entryName e) = false ∧
        (match e with | .dir _ ch => wf ch = true | _ => True) ∧
        wf rest = true) := by
  cases e with
  | file n c =>
    simp only [wf, entryName, Bool.and_eq_true, Bool.not_eq_true']
    tauto
  | dir n ch =>
    simp only [wf, entryName, Bool.and_eq_true, Bool.not_eq_true']
    tauto

theorem wf_child (n : String) (es : FS) (hwf : wf es = true)
    (m : String) (ch : FS) (h : entryNamed n es = some (.dir m ch)) :
    wf ch = true := by
  induction es with
  | nil => simp [entryNamed] at h
  | cons e rest ih =>
    rw [entryNamed] at h
    rw [wf_cons] at hwf
    by_cases h₀ : entryName e = n
    · rw [if_pos h₀] at h
      cases e with
      | file n₀ c₀ => cases h
      | dir n₀ ch₀ =>
        cases h
        exact hwf.2.1
    · rw [if_neg h₀] at h
      exact ih hwf.2.2 h

theorem contains_false_iff (l : List String) (a : String) :
    l.contains a = false ↔ a ∉ l := by
  constructor
  · intro h; simpa using h
  · intro h; simpa using h

theorem mem_names_writeIn (n m : String) (c : Bytes) (es : FS)
    (h : m ∈ (writeIn n c es).map entryName) :
    m ∈ es.map entryName ∨ m = n := by
  induction es with
  | nil =>
    simp [writeIn, entryName] at h
    exact Or.inr h
  | cons e rest ih =>
    cases e with
    | file n₀ c₀ =>
      by_cases hn : n₀ = n
      · subst hn
        simp only [writeIn, if_true, eq_self_iff_true, List.map_cons,
          List.mem_cons, entryName] at h ⊢
        tauto
      · simp only [writeIn, if_neg hn, List.map_cons, List.mem_cons,
          entryName] at h ⊢
        rcases h with h | h
        · exact Or.inl (Or.inl h)
        · rcases ih h with h' | h'
          · exact Or.inl (Or.inr h')
          · exact Or.inr h'
    | dir n₀ ch =>
      by_cases hn : n₀ = n
      · subst hn
        simp only [writeIn, if_true, eq_self_iff_true, List.map_cons,
          List.mem_cons, entryName] at h ⊢
        tauto
      · simp only [writeIn, if_neg hn, List.map_cons, List.mem_cons,
          entryName] at h ⊢
        rcases h with h | h
        · exact Or.inl (Or.inl h)
        · rcases ih h with h' | h'
          · exact Or.inl (Or.inr h')
          · exact Or.inr h'

theorem wf_writeIn (n : String) (c : Bytes) (es : FS)
    (hwf : wf es = true) : wf (writeIn n c es) = true := by
  induction es with
  | nil => simp [writeIn, wf]
  | cons e rest ih =>
    rw [wf_cons] at hwf
    obtain ⟨hc, he, hrest⟩ := hwf
    cases e with
    | file n₀ c₀ =>
      by_cases hn : n₀ = n
      · subst hn
        simp only [writeIn, if_true, eq_self_iff_true]
        rw [wf_cons]
        exact ⟨hc, trivial, hrest⟩
      · simp only [writeIn, if_neg hn]
        rw [wf_cons]
        refine ⟨?_, trivial, ih hrest⟩
        simp only [entryName] at hc ⊢
        rw [contains_false_iff] at hc ⊢
        intro hmem
        rcases mem_names_writeIn n n₀ c rest hmem with h' | h'
        · exact hc h'
        · exact hn h'
    | dir n₀ ch =>
      by_cases hn : n₀ = n
      · subst hn
        simp only [writeIn, if_true, eq_self_iff_true]
        rw [wf_cons]
        exact ⟨hc, he, hrest⟩
      · simp only [writeIn, if_neg hn]
        rw [wf_cons]
        refine ⟨?_, he, ih hrest⟩
        simp only [entryName] at hc ⊢
        rw [contains_false_iff] at hc ⊢
        intro hmem
        rcases mem_names_writeIn n n₀ c rest hmem with h' | h'
        · exact hc h'
        · exact hn h'

theorem wf_modifyDir (n : String) (f : FS → FS) (es : FS)
    (hf : ∀ ch, wf ch = true → wf (f ch) = true)
    (hwf : wf es = true) : wf (modifyDir n f es) = true := by
  induction es with
  | nil => simpa [modifyDir] using hwf
  | cons e rest ih =>
    rw [wf_cons] at hwf
    obtain ⟨hc, he, hrest⟩ := hwf
    by_cases hn : entryName e = n
    · cases e with
      | file n₀ c₀ =>
        simp only [modifyDir, if_pos hn]
        rw [wf_cons]
        exact ⟨hc, trivial, hrest⟩
      | dir n₀ ch =>
        simp only [modifyDir, if_pos hn]
        rw [wf_cons]
        exact ⟨hc, hf ch he, hrest⟩
    · simp only [modifyDir, if_neg hn]
      rw [wf_cons]
      refine ⟨?_, he, ih hrest⟩
      rw [names_modifyDir]
      exact hc

theorem wf_writeFile (t : FPath) (c : Bytes) :
    ∀ fs : FS, wf fs = true → wf (writeFile fs t c) = true := by
  induction t with
  | nil => intro fs h; exact h
  | cons n rest ih =>
    intro fs h
    cases rest with
    | nil => exact wf_writeIn n c fs h
    | cons m p =>
      show wf (modifyDir n (fun ch => writeFile ch (m :: p) c) fs) = true
      exact wf_modifyDir n _ fs (fun ch hch => ih ch hch) h

theorem mem_names_removeIn (n m : String) (es : FS)
    (h : m ∈ (removeIn n es).map entryName) : m ∈ es.map entryName := by
  induction es with
  | nil => simpa [removeIn] using h
  | cons e rest ih =>
    cases e with
    | file n₀ c₀ =>
      by_cases hn : n₀ = n
      · subst hn
        simp only [removeIn, if_pos rfl] at h
        simp only [List.map_cons, List.mem_cons]
        exact Or.inr h
      · simp only [removeIn, if_neg hn, List.map_cons, List.mem_cons,
          entryName] at h ⊢
        rcases h with h | h
        · exact Or.inl h
        · exact Or.inr (ih h)
    | dir n₀ ch =>
      by_cases hn : n₀ = n
      · subst hn
        simpa [removeIn] using h
      · simp only [removeIn, if_neg hn, List.map_cons, List.mem_cons,
          entryName] at h ⊢
        rcases h with h | h
        · exact Or.inl h
        · exact Or.inr (ih h)

theorem wf_removeIn (n : String) (es : FS) (hwf : wf es = true) :
    wf (removeIn n es) = true := by
  induction es with
  | nil => simpa [removeIn] using hwf
  | cons e rest ih =>
    rw [wf_cons] at hwf
    obtain ⟨hc, he, hrest⟩ := hwf
    cases e with
    | file n₀ c₀ =>
      by_cases hn : n₀ = n
      · subst hn
        simpa [removeIn] using hrest
      · simp only [removeIn, if_neg hn]
        rw [wf_cons]
        refine ⟨?_, trivial, ih hrest⟩
        simp only [entryName] at hc ⊢
        rw [contains_false_iff] at hc ⊢
        exact fun hmem => hc (mem_names_removeIn n n₀ rest hmem)
    | dir n₀ ch =>
      by_cases hn : n₀ = n
      · subst hn
        simp only [removeIn, if_true, eq_self_iff_true]
        rw [wf_cons]
        exact ⟨hc, he, hrest⟩
      · simp only [removeIn, if_neg hn]
        rw [wf_cons]
        refine ⟨?_, he, ih hrest⟩
        simp only [entryName] at hc ⊢
        rw [contains_false_iff] at hc ⊢
        exact fun hmem => hc (mem_names_removeIn n n₀ rest hmem)

theorem wf_removeFile (t : FPath) :
    ∀ fs : FS, wf fs = true → wf (removeFile fs t) = true := by
  induction t with
  | nil => intro fs h; exact h
  | cons n rest ih =>
    intro fs h
    cases rest with
    | nil => exact wf_removeIn n fs h
    | cons m p =>
      show wf (modifyDir n (fun ch => removeFile ch (m :: p)) fs) = true
      exact wf_modifyDir n _ fs (fun ch hch => ih ch hch) h

/-! ## Lemmas about the static-file scan -/

theorem find_static_files_append (ext : List String) (es es₂ : FS) :
    find_static_files ext (es ++ es₂) =
      find_static_files ext es ++ find_static_files ext es₂ := by
  induction es with
  | nil => simp [find_static_files]
  | cons e rest ih =>
    cases e with
    | file n c =>
      rw [List.cons_append, find_static_files, find_static_files, ih,
        List.append_assoc]
    | dir n ch =>
      rw [List.cons_append, find_static_files, find_static_files, ih,
        List.append_assoc]

theorem mem_find_static_files (ext : List String) (es : FS) (q : FPath)
    (h : q ∈ find_static_files ext es) :
    (∃ n c, q = [n] ∧ .file n c ∈ es ∧
      strEndsWith n ".gz" = false ∧ get_extension n ∈ ext) ∨
    (∃ d ch q₂, q = d :: q₂ ∧ .dir d ch ∈ es ∧
      q₂ ∈ find_static_files ext ch) := by
  induction es with
  | nil => simp [find_static_files] at h
  | cons e rest ih =>
    cases e with
    | file n c =>
      rw [find_static_files] at h
      rcases List.mem_append.mp h with h₁ | h₁
      · split at h₁
        · next hcond =>
          simp only [List.mem_singleton] at h₁
          refine Or.inl ⟨n, c, h₁, List.mem_cons_self _ _, ?_, hcond.2⟩
          rw [Bool.not_eq_true] at hcond
          exact hcond.1
        · simp at h₁
      · rcases ih h₁ with ⟨n', c', hq, hm, hgz, he⟩ | ⟨d, ch, q₂, hq, hm, hmem⟩
        · exact Or.inl ⟨n', c', hq, List.mem_cons_of_mem _ hm, hgz, he⟩
        · exact Or.inr ⟨d, ch, q₂, hq, List.mem_cons_of_mem _ hm, hmem⟩
    | dir n ch =>
      rw [find_static_files] at h
      rcases List.mem_append.mp h with h₁ | h₁
      · obtain ⟨q₂, hmem, rfl⟩ := List.mem_map.mp h₁
        exact Or.inr ⟨n, ch, q₂, rfl, List.mem_cons_self _ _, hmem⟩
      · rcases ih h₁ with ⟨n', c', hq, hm, hgz, he⟩ | ⟨d, ch₂, q₂, hq, hm, hmem⟩
        · exact Or.inl ⟨n', c', hq, List.mem_cons_of_mem _ hm, hgz, he⟩
        · exact Or.inr ⟨d, ch₂, q₂, hq, List.mem_cons_of_mem _ hm, hmem⟩

theorem find_static_files_ne_nil (ext : List String) (es : FS) (q : FPath)
    (h : q ∈ find_static_files ext es) : q ≠ [] := by
  rcases mem_find_static_files ext es q h with ⟨n, c, hq, _⟩ | ⟨d, ch, q₂, hq, _⟩
  · rw [hq]; simp
  · rw [hq]; simp

/-- No discovered static file has a name ending in `.gz`. -/
theorem find_static_files_not_gz (ext : List String) (q : FPath) :
    ∀ es : FS, q ∈ find_static_files ext es →
      strEndsWith (lastName q) ".gz" = false := by
  induction q with
  | nil =>
    intro es h
    exact absurd rfl (find_static_files_ne_nil ext es [] h)
  | cons d q₂ ih =>
    intro es h
    rcases mem_find_static_files ext es _ h with
      ⟨n, c, hq, _, hgz, _⟩ | ⟨d₀, ch, q₃, hq, _, hmem⟩
    · injection hq with h₁ h₂
      subst h₁
      subst h₂
      rw [lastName_single]
      exact hgz
    · injection hq with h₁ h₂
      subst h₁
      subst h₂
      rw [lastName_cons d q₂ (find_static_files_ne_nil ext ch q₂ hmem)]
      exact ih ch hmem

theorem head_mem_find_static_files (ext : List String) (es : FS) (q : FPath)
    (h : q ∈ find_static_files ext es) :
    ∃ n, q.head? = some n ∧ n ∈ es.map entryName := by
  rcases mem_find_static_files ext es q h with
    ⟨n, c, hq, hm, _⟩ | ⟨d, ch, q₂, hq, hm, _⟩
  · exact ⟨n, by rw [hq]; rfl,
      List.mem_map.mpr ⟨.file n c, hm, rfl⟩⟩
  · exact ⟨d, by rw [hq]; rfl,
      List.mem_map.mpr ⟨.dir d ch, hm, rfl⟩⟩

/-- In a well-formed tree the discovered paths are pairwise distinct. -/
theorem find_static_files_nodup (ext : List String) :
    ∀ es : FS, wf es = true → (find_static_files ext es).Nodup
  | [], _ => by simp [find_static_files]
  | .file n c :: rest, hwf => by
    rw [wf_cons] at hwf
    obtain ⟨hc, -, hrest⟩ := hwf
    rw [contains_false_iff] at hc
    rw [find_static_files]
    apply List.Nodup.append
    · split
      · simp
      · simp
    · exact find_static_files_nodup ext rest hrest
    · intro q hq₁ hq₂
      split at hq₁
      · simp only [List.mem_singleton] at hq₁
        obtain ⟨m, hm₁, hm₂⟩ := head_mem_find_static_files ext rest q hq₂
        rw [hq₁] at hm₁
        simp only [List.head?_cons, Option.some.injEq] at hm₁
        rw [← hm₁] at hm₂
        exact hc hm₂
      · simp at hq₁
  | .dir n ch :: rest, hwf => by
    rw [wf_cons] at hwf
    obtain ⟨hc, he, hrest⟩ := hwf
    rw [contains_false_iff] at hc
    rw [find_static_files]
    apply List.Nodup.append
    · exact (find_static_files_nodup ext ch he).map
        (fun a b hab => by simpa using hab)
    · exact find_static_files_nodup ext rest hrest
    · intro q hq₁ hq₂
      obtain ⟨q₂, -, rfl⟩ := List.mem_map.mp hq₁
      obtain ⟨m, hm₁, hm₂⟩ := head_mem_find_static_files ext rest _ hq₂
      simp only [List.head?_cons, Option.some.injEq] at hm₁
      rw [← hm₁] at hm₂
      exact hc hm₂

/-- Writing a `.gz`-named file anywhere leaves the scan unchanged: an
overwrite keeps every name, a creation appends an entry the scan filters
out. -/
theorem find_writeIn_gz (ext : List String) (n : String) (c : Bytes)
    (es : FS) (hgz : strEndsWith n ".gz" = true) :
    find_static_files ext (writeIn n c es) = find_static_files ext es := by
  induction es with
  | nil =>
    rw [show writeIn n c [] = [.file n c] from rfl]
    rw [find_static_files, find_static_files]
    simp [hgz, find_static_files]
  | cons e rest ih =>
    cases e with
    | file n₀ c₀ =>
      by_cases hn : n₀ = n
      · subst hn
        simp only [writeIn, if_true, eq_self_iff_true]
        rw [find_static_files, find_static_files]
      · simp only [writeIn, if_neg hn]
        rw [find_static_files, find_static_files, ih]
    | dir n₀ ch =>
      by_cases hn : n₀ = n
      · simp only [writeIn, if_pos hn]
      · simp only [writeIn, if_neg hn]
        rw [find_static_files, find_static_files, ih]

theorem find_modifyDir (ext : List String) (n : String) (f : FS → FS)
    (es : FS) (hf : ∀ ch, find_static_files ext (f ch) =
      find_static_files ext ch) :
    find_static_files ext (modifyDir n f es) = find_static_files ext es := by
  induction es with
  | nil => simp [modifyDir]
  | cons e rest ih =>
    by_cases hn : entryName e = n
    · cases e with
      | file n₀ c₀ => simp only [modifyDir, if_pos hn]
      | dir n₀ ch =>
        simp only [modifyDir, if_pos hn]
        rw [find_static_files, find_static_files, hf]
    · simp only [modifyDir, if_neg hn]
      cases e with
      | file n₀ c₀ => rw [find_static_files, find_static_files, ih]
      | dir n₀ ch => rw [find_static_files, find_static_files, ih]

/-- Writing a companion file (a `.gz` path) never changes the set of
discovered static files. -/
theorem find_writeFile_gz (ext : List String) (t : FPath) (c : Bytes)
    (hgz : strEndsWith (lastName t) ".gz" = true) :
    ∀ fs : FS, find_static_files ext (writeFile fs t c) =
      find_static_files ext fs := by
  induction t with
  | nil => intro fs; rfl
  | cons n rest ih =>
    intro fs
    cases rest with
    | nil =>
      show find_static_files ext (writeIn n c fs) = _
      exact find_writeIn_gz ext n c fs (by simpa [lastName_single] using hgz)
    | cons m p =>
      show find_static_files ext
        (modifyDir n (fun ch => writeFile ch (m :: p) c) fs) = _
      apply find_modifyDir
      intro ch
      exact ih (by rwa [lastName_cons n (m :: p) (by simp)] at hgz) ch

/-! ## Behaviour of the compressor and the per-file step -/

theorem strEndsWith_lastName_appendGz (p : FPath) (hp : p ≠ []) :
    strEndsWith (lastName (appendGz p)) ".gz" = true := by
  rw [lastName_appendGz p hp]
  exact strEndsWith_append_gz _

/-- Any successful `compress_path` read the source, found the companion
target writable, and wrote it with data that decompresses back to the
source content. -/
theorem compress_path_ok_elim (be : GzipBackend) (fs : FS) (p : FPath)
    (level bs : Nat) (r : FS × Bool)
    (hok : compress_path be fs p level bs = .ok r) :
    ∃ c w, lookupFile fs p = some c ∧
      writable fs (appendGz p) = true ∧
      r.1 = writeFile fs (appendGz p) w ∧
      (bs ≠ 0 → be.gunzip w = c) := by
  rw [compress_path] at hok
  by_cases h11 : level = 11
  · rw [if_pos h11] at hok
    cases hz : be.zopfli with
    | none => rw [hz] at hok; cases hok
    | some z =>
      rw [hz] at hok
      dsimp only at hok
      cases hc : lookupFile fs p with
      | none => rw [hc] at hok; cases hok
      | some c =>
        rw [hc] at hok
        dsimp only at hok
        by_cases hbig : c.length > ZOPFLI_MAXIMUM_SIZE
        · rw [if_pos hbig] at hok
          by_cases hwr : writable fs (appendGz p) = true
          · rw [if_pos hwr] at hok
            cases hok
            refine ⟨c, _, rfl, hwr, rfl, fun hbs => ?_⟩
            rw [be.std_rt, joinBlocks_chunksOf bs hbs]
          · rw [if_neg hwr] at hok; cases hok
        · rw [if_neg hbig] at hok
          by_cases hwr : writable fs (appendGz p) = true
          · rw [if_pos hwr] at hok
            cases hok
            exact ⟨c, z c, rfl, hwr, rfl, fun _ => be.zopfli_rt z hz c⟩
          · rw [if_neg hwr] at hok; cases hok
  · rw [if_neg h11] at hok
    cases hc : lookupFile fs p with
    | none => rw [hc] at hok; cases hok
    | some c =>
      rw [hc] at hok
      dsimp only at hok
      by_cases hwr : writable fs (appendGz p) = true
      · rw [if_pos hwr] at hok
        cases hok
        refine ⟨c, _, rfl, hwr, rfl, fun hbs => ?_⟩
        rw [be.std_rt, joinBlocks_chunksOf bs hbs]
      · rw [if_neg hwr] at hok; cases hok

/-- A successful `compress_path` exists whenever the source is readable,
the companion target is writable, and zopfli is present if requested. -/
theorem compress_path_ok_intro (be : GzipBackend) (fs : FS) (p : FPath)
    (level bs : Nat) (c : Bytes)
    (hc : lookupFile fs p = some c)
    (hwr : writable fs (appendGz p) = true)
    (hz : level = 11 → be.zopfli.isSome = true) :
    ∃ r, compress_path be fs p level bs = .ok r := by
  rw [compress_path]
  by_cases h11 : level = 11
  · rw [if_pos h11]
    cases hzz : be.zopfli with
    | none => rw [hzz] at hz; simp at hz; exact absurd (hz h11) (by simp)
    | some z =>
      rw [hc]
      dsimp only
      by_cases hbig : c.length > ZOPFLI_MAXIMUM_SIZE
      · rw [if_pos hbig, if_pos hwr]; exact ⟨_, rfl⟩
      · rw [if_neg hbig, if_pos hwr]; exact ⟨_, rfl⟩
  · rw [if_neg h11, hc]
    dsimp only
    rw [if_pos hwr]
    exact ⟨_, rfl⟩

theorem DEFAULT_BLOCK_SIZE_ne_zero : DEFAULT_BLOCK_SIZE ≠ 0 := by decide

/-- Digest computed for a discovered static file (no `.gz` name). -/
theorem hashPath_raw (be : GzipBackend) (H : Bytes → Bytes) (fs : FS)
    (p : FPath) (c : Bytes) (hc : lookupFile fs p = some c)
    (hp : strEndsWith (lastName p) ".gz" = false) :
    hashPath be H fs p DEFAULT_BLOCK_SIZE = some (H c) := by
  rw [hashPath, hc, Option.map_some']
  congr 1
  rw [hash_file_contents_eq be.gunzip H be.gunzip_nil be.gunzip_ext _ _ _
    DEFAULT_BLOCK_SIZE_ne_zero, hp]
  simp

/-- Digest computed for a companion (`.gz` name): the decompressed bytes
are hashed. -/
theorem hashPath_gz (be : GzipBackend) (H : Bytes → Bytes) (fs : FS)
    (q : FPath) (c : Bytes) (hc : lookupFile fs q = some c)
    (hq : strEndsWith (lastName q) ".gz" = true) :
    hashPath be H fs q DEFAULT_BLOCK_SIZE = some (H (be.gunzip c)) := by
  rw [hashPath, hc, Option.map_some']
  congr 1
  rw [hash_file_contents_eq be.gunzip H be.gunzip_nil be.gunzip_ext _ _ _
    DEFAULT_BLOCK_SIZE_ne_zero, hq]
  simp

/-- The state left by a successful non-forced `compress_idempotent`: the
companion is up to date, every other path is untouched, the discovered
static files and well-formedness are preserved. -/
theorem compress_idempotent_ok_state (be : GzipBackend) (H : Bytes → Bytes)
    (fs : FS) (p : FPath) (level : Nat) (r : Nat) (fs₂ : FS)
    (hp : strEndsWith (lastName p) ".gz" = false) (hpn : p ≠ [])
    (hok : compress_idempotent be H fs p level false = .ok (r, fs₂)) :
    companionUpToDate be H fs₂ p ∧
      (∀ q, q ≠ appendGz p → lookupFile fs₂ q = lookupFile fs q) ∧
      (∀ ext, find_static_files ext fs₂ = find_static_files ext fs) ∧
      (wf fs = true → wf fs₂ = true) := by
  have hgzlast := strEndsWith_lastName_appendGz p hpn
  have hne : p ≠ appendGz p := ne_appendGz_of_not_gz p p hpn hp
  rw [compress_idempotent] at hok
  by_cases hEx : existsPath fs (appendGz p) = true
  · rw [hEx] at hok
    simp only [if_true] at hok
    rw [if_neg (show ¬(false = true) by simp)] at hok
    cases hh₁ : hashPath be H fs p DEFAULT_BLOCK_SIZE with
    | none => rw [hh₁] at hok; dsimp only at hok; cases hok
    | some d₁ =>
      cases hh₂ : hashPath be H fs (appendGz p) DEFAULT_BLOCK_SIZE with
      | none => rw [hh₁, hh₂] at hok; dsimp only at hok; cases hok
      | some d₂ =>
        rw [hh₁, hh₂] at hok
        dsimp only at hok
        by_cases heq : d₁ = d₂
        · rw [if_pos heq] at hok
          cases hok
          obtain ⟨c, hc⟩ : ∃ c, lookupFile fs p = some c := by
            rw [hashPath] at hh₁
            cases hl : lookupFile fs p with
            | none => rw [hl] at hh₁; cases hh₁
            | some c => exact ⟨c, rfl⟩
          obtain ⟨gzc, hgzc⟩ :
              ∃ gzc, lookupFile fs (appendGz p) = some gzc := by
            rw [hashPath] at hh₂
            cases hl : lookupFile fs (appendGz p) with
            | none => rw [hl] at hh₂; cases hh₂
            | some gzc => exact ⟨gzc, rfl⟩
          refine ⟨⟨c, gzc, hc, hgzc, ?_⟩, fun q _ => rfl, fun ext => rfl,
            fun h => h⟩
          have e₁ := hashPath_raw be H fs p c hc hp
          have e₂ := hashPath_gz be H fs (appendGz p) gzc hgzc hgzlast
          rw [hh₁] at e₁
          rw [hh₂] at e₂
          cases e₁
          cases e₂
          exact heq
        · rw [if_neg heq] at hok
          cases hcp : compress_path be fs p level DEFAULT_BLOCK_SIZE with
          | error e => rw [hcp] at hok; cases hok
          | ok fw =>
            rw [hcp] at hok
            cases hok
            obtain ⟨c, w, hc, hwr, hfs, hrt⟩ :=
              compress_path_ok_elim be fs p level DEFAULT_BLOCK_SIZE fw hcp
            rw [hfs]
            refine ⟨⟨c, w, ?_, ?_, ?_⟩, ?_, ?_, ?_⟩
            · rw [lookupFile_writeFile_ne (appendGz p) w fs p hne]
              exact hc
            · exact lookupFile_writeFile_self (appendGz p) w fs hwr
            · rw [hrt DEFAULT_BLOCK_SIZE_ne_zero]
            · intro q hq
              exact lookupFile_writeFile_ne (appendGz p) w fs q hq
            · intro ext
              exact find_writeFile_gz ext (appendGz p) w hgzlast fs
            · intro h
              exact wf_writeFile (appendGz p) w fs h
  · rw [Bool.not_eq_true] at hEx
    rw [hEx] at hok
    simp only [Bool.false_eq_true, if_false] at hok
    cases hcp : compress_path be fs p level DEFAULT_BLOCK_SIZE with
    | error e => rw [hcp] at hok; cases hok
    | ok fw =>
      rw [hcp] at hok
      cases hok
      obtain ⟨c, w, hc, hwr, hfs, hrt⟩ :=
        compress_path_ok_elim be fs p level DEFAULT_BLOCK_SIZE fw hcp
      rw [hfs]
      refine ⟨⟨c, w, ?_, ?_, ?_⟩, ?_, ?_, ?_⟩
      · rw [lookupFile_writeFile_ne (appendGz p) w fs p hne]
        exact hc
      · exact lookupFile_writeFile_self (appendGz p) w fs hwr
      · rw [hrt DEFAULT_BLOCK_SIZE_ne_zero]
      · intro q hq
        exact lookupFile_writeFile_ne (appendGz p) w fs q hq
      · intro ext
        exact find_writeFile_gz ext (appendGz p) w hgzlast fs
      · intro h
        exact wf_writeFile (appendGz p) w fs h

/-- An up-to-date companion makes the non-forced step a pure skip. -/
theorem compress_idempotent_skip (be : GzipBackend) (H : Bytes → Bytes)
    (fs : FS) (p : FPath) (level : Nat)
    (hp : strEndsWith (lastName p) ".gz" = false) (hpn : p ≠ [])
    (hcu : companionUpToDate be H fs p) :
    compress_idempotent be H fs p level false = .ok (SKIPPED, fs) := by
  obtain ⟨c, gzc, hc, hgzc, hH⟩ := hcu
  have hEx : existsPath fs (appendGz p) = true :=
    existsPath_of_lookup (appendGz p) fs gzc hgzc
  rw [compress_idempotent]
  simp only [hEx, if_true]
  rw [hashPath_raw be H fs p c hc hp,
    hashPath_gz be H fs (appendGz p) gzc hgzc
      (strEndsWith_lastName_appendGz p hpn)]
  simp [hH]

/-- `compress_idempotent` never reports `DELETED`. -/
theorem compress_idempotent_outcome (be : GzipBackend) (H : Bytes → Bytes)
    (fs : FS) (p : FPath) (level : Nat) (force : Bool) (r : Nat) (fs₂ : FS)
    (hok : compress_idempotent be H fs p level force = .ok (r, fs₂)) :
    r = COMPRESSED ∨ r = RECOMPRESSED ∨ r = SKIPPED := by
  rw [compress_idempotent] at hok
  by_cases hEx : existsPath fs (appendGz p) = true
  · rw [hEx] at hok
    simp only [if_true] at hok
    cases force with
    | true =>
      simp only [if_true] at hok
      cases hcp : compress_path be fs p level DEFAULT_BLOCK_SIZE with
      | error e => rw [hcp] at hok; cases hok
      | ok fw =>
        rw [hcp] at hok
        cases hok
        exact Or.inr (Or.inl rfl)
    | false =>
      simp only [Bool.false_eq_true, if_false] at hok
      cases hh₁ : hashPath be H fs p DEFAULT_BLOCK_SIZE with
      | none => rw [hh₁] at hok; dsimp only at hok; cases hok
      | some d₁ =>
        cases hh₂ : hashPath be H fs (appendGz p) DEFAULT_BLOCK_SIZE with
        | none => rw [hh₁, hh₂] at hok; dsimp only at hok; cases hok
        | some d₂ =>
          rw [hh₁, hh₂] at hok
          dsimp only at hok
          by_cases heq : d₁ = d₂
          · rw [if_pos heq] at hok
            cases hok
            exact Or.inr (Or.inr rfl)
          · rw [if_neg heq] at hok
            cases hcp : compress_path be fs p level DEFAULT_BLOCK_SIZE with
            | error e => rw [hcp] at hok; cases hok
            | ok fw =>
              rw [hcp] at hok
              cases hok
              exact Or.inr (Or.inl rfl)
  · rw [Bool.not_eq_true] at hEx
    rw [hEx] at hok
    simp only [Bool.false_eq_true, if_false] at hok
    cases hcp : compress_path be fs p level DEFAULT_BLOCK_SIZE with
    | error e => rw [hcp] at hok; cases hok
    | ok fw =>
      rw [hcp] at hok
      cases hok
      exact Or.inl rfl

/-! ## Removal lemmas -/

theorem entryNamed_removeIn_ne (n m : String) (es : FS) (h : m ≠ n) :
    entryNamed m (removeIn n es) = entryNamed m es := by
  induction es with
  | nil => simp [removeIn]
  | cons e rest ih =>
    cases e with
    | file n₀ c₀ =>
      by_cases hn : n₀ = n
      · subst hn
        simp [removeIn, entryNamed, entryName, Ne.symm h]
      · by_cases hm : n₀ = m
        · simp [removeIn, entryNamed, entryName, hn, hm, h]
        · simp [removeIn, entryNamed, entryName, hn, hm, ih]
    | dir n₀ ch =>
      by_cases hn : n₀ = n
      · simp [removeIn, entryNamed, entryName, hn]
      · by_cases hm : n₀ = m
        · simp [removeIn, entryNamed, entryName, hn, hm, h]
        · simp [removeIn, entryNamed, entryName, hn, hm, ih]

/-- Removing a name from a duplicate-free listing: a regular file is gone
for good, anything else survives untouched. -/
theorem entryNamed_removeIn_self (n : String) (es : FS)
    (hwf : wf es = true) :
    entryNamed n (removeIn n es) =
      match entryNamed n es with
      | some (.file _ _) => none
      | other => other := by
  induction es with
  | nil => simp [removeIn, entryNamed]
  | cons e rest ih =>
    rw [wf_cons] at hwf
    obtain ⟨hc, -, hrest⟩ := hwf
    rw [contains_false_iff] at hc
    cases e with
    | file n₀ c₀ =>
      by_cases hn : n₀ = n
      · subst hn
        simp only [removeIn, if_true, eq_self_iff_true, entryNamed,
          entryName, if_pos rfl]
        rw [(entryNamed_eq_none_iff n₀ rest).mpr (by simpa using hc)]
      · simp [removeIn, entryNamed, entryName, hn, ih hrest]
    | dir n₀ ch =>
      by_cases hn : n₀ = n
      · subst hn
        simp [removeIn, entryNamed, entryName]
      · simp [removeIn, entryNamed, entryName, hn, ih hrest]

/-- After `os.remove(q)` no regular file is visible at `q`. -/
theorem lookupFile_removeFile_self (q : FPath) :
    ∀ fs : FS, wf fs = true → lookupFile (removeFile fs q) q = none := by
  induction q with
  | nil => intro fs _; simp [lookupFile]
  | cons n q₂ ih =>
    intro fs hwf
    cases q₂ with
    | nil =>
      show lookupFile (removeIn n fs) [n] = none
      rw [lookupFile_single, entryNamed_removeIn_self n fs hwf]
      cases hE : entryNamed n fs with
      | none => rfl
      | some e => cases e <;> rfl
    | cons m q₃ =>
      show lookupFile (modifyDir n (fun ch => removeFile ch (m :: q₃)) fs)
        (n :: m :: q₃) = none
      rw [lookupFile_pair,
        entryNamed_modifyDir_self n (fun ch => removeFile ch (m :: q₃)) fs]
      cases hE : entryNamed n fs with
      | none => rfl
      | some e =>
        cases e with
        | file n₀ c₀ => rfl
        | dir n₀ ch =>
          dsimp only
          exact ih ch (wf_child n fs hwf n₀ ch hE)

/-- Removal never makes an invisible file visible. -/
theorem lookupFile_removeFile_none (t : FPath) :
    ∀ (fs : FS) (q : FPath), wf fs = true → lookupFile fs q = none →
      lookupFile (removeFile fs t) q = none := by
  induction t with
  | nil => intro fs q _ h; exact h
  | cons n t₂ ih =>
    intro fs q hwf h
    cases t₂ with
    | nil =>
      show lookupFile (removeIn n fs) q = none
      cases q with
      | nil => simp [lookupFile]
      | cons m q₂ =>
        by_cases hm : m = n
        · subst hm
          cases q₂ with
          | nil =>
            rw [lookupFile_single, entryNamed_removeIn_self m fs hwf]
            rw [lookupFile_single] at h
            cases hE : entryNamed m fs with
            | none => rfl
            | some e =>
              cases e with
              | file n₀ c₀ => rfl
              | dir n₀ ch => first | (rw [hE] at h; exact h) | rfl
          | cons m₂ q₃ =>
            rw [lookupFile_pair, entryNamed_removeIn_self m fs hwf]
            rw [lookupFile_pair] at h
            cases hE : entryNamed m fs with
            | none => rfl
            | some e =>
              cases e with
              | file n₀ c₀ => rfl
              | dir n₀ ch => first | (rw [hE] at h; exact h) | rfl
        · cases q₂ with
          | nil =>
            rw [lookupFile_single, entryNamed_removeIn_ne n m fs hm]
            rw [lookupFile_single] at h
            exact h
          | cons m₂ q₃ =>
            rw [lookupFile_pair, entryNamed_removeIn_ne n m fs hm]
            rw [lookupFile_pair] at h
            exact h
    | cons t₃ t₄ =>
      show lookupFile (modifyDir n (fun ch => removeFile ch (t₃ :: t₄)) fs)
        q = none
      cases q with
      | nil => simp [lookupFile]
      | cons m q₂ =>
        by_cases hm : m = n
        · subst hm
          cases q₂ with
          | nil =>
            rw [lookupFile_single,
              entryNamed_modifyDir_self m _ fs]
            rw [lookupFile_single] at h
            cases hE : entryNamed m fs with
            | none => rfl
            | some e =>
              cases e with
              | file n₀ c₀ => first | (rw [hE] at h; exact h) | rfl
              | dir n₀ ch => rfl
          | cons m₂ q₃ =>
            rw [lookupFile_pair,
              entryNamed_modifyDir_self m _ fs]
            rw [lookupFile_pair] at h
            cases hE : entryNamed m fs with
            | none => rfl
            | some e =>
              cases e with
              | file n₀ c₀ => first | (rw [hE] at h; exact h) | rfl
              | dir n₀ ch =>
                rw [hE] at h
                dsimp only
                exact ih ch (m₂ :: q₃) (wf_child m fs hwf n₀ ch hE) h
        · cases q₂ with
          | nil =>
            rw [lookupFile_single,
              entryNamed_modifyDir_ne n m _ fs hm]
            rw [lookupFile_single] at h
            exact h
          | cons m₂ q₃ =>
            rw [lookupFile_pair,
              entryNamed_modifyDir_ne n m _ fs hm]
            rw [lookupFile_pair] at h
            exact h

/-- `os.remove(t)` does not disturb the file visible at any other path. -/
theorem lookupFile_removeFile_ne (t : FPath) :
    ∀ (fs : FS) (q : FPath), wf fs = true → q ≠ t →
      lookupFile (removeFile fs t) q = lookupFile fs q := by
  induction t with
  | nil => intro fs q _ _; rfl
  | cons n t₂ ih =>
    intro fs q hwf hq
    cases t₂ with
    | nil =>
      show lookupFile (removeIn n fs) q = lookupFile fs q
      cases q with
      | nil => simp [lookupFile]
      | cons m q₂ =>
        by_cases hm : m = n
        · subst hm
          cases q₂ with
          | nil => exact absurd rfl hq
          | cons m₂ q₃ =>
            rw [lookupFile_pair, lookupFile_pair,
              entryNamed_removeIn_self m fs hwf]
            cases hE : entryNamed m fs with
            | none => rfl
            | some e => cases e <;> rfl
        · cases q₂ with
          | nil =>
            rw [lookupFile_single, lookupFile_single,
              entryNamed_removeIn_ne n m fs hm]
          | cons m₂ q₃ =>
            rw [lookupFile_pair, lookupFile_pair,
              entryNamed_removeIn_ne n m fs hm]
    | cons t₃ t₄ =>
      show lookupFile (modifyDir n (fun ch => removeFile ch (t₃ :: t₄)) fs)
        q = lookupFile fs q
      cases q with
      | nil => simp [lookupFile]
      | cons m q₂ =>
        by_cases hm : m = n
        · subst hm
          cases q₂ with
          | nil =>
            rw [lookupFile_single, lookupFile_single,
              entryNamed_modifyDir_self m _ fs]
            cases hE : entryNamed m fs with
            | none => rfl
            | some e => cases e <;> rfl
          | cons m₂ q₃ =>
            rw [lookupFile_pair, lookupFile_pair,
              entryNamed_modifyDir_self m _ fs]
            cases hE : entryNamed m fs with
            | none => rfl
            | some e =>
              cases e with
              | file n₀ c₀ => rfl
              | dir n₀ ch =>
                dsimp only
                exact ih ch (m₂ :: q₃) (wf_child m fs hwf n₀ ch hE)
                  (fun he => hq (by rw [he]))
        · cases q₂ with
          | nil =>
            rw [lookupFile_single, lookupFile_single,
              entryNamed_modifyDir_ne n m _ fs hm]
          | cons m₂ q₃ =>
            rw [lookupFile_pair, lookupFile_pair,
              entryNamed_modifyDir_ne n m _ fs hm]

/-- Removal never makes a non-existent path exist. -/
theorem existsPath_removeFile_false (t : FPath) :
    ∀ (fs : FS) (q : FPath), wf fs = true → existsPath fs q = false →
      existsPath (removeFile fs t) q = false := by
  induction t with
  | nil => intro fs q _ h; exact h
  | cons n t₂ ih =>
    intro fs q hwf h
    cases t₂ with
    | nil =>
      show existsPath (removeIn n fs) q = false
      cases q with
      | nil => simp [existsPath] at h
      | cons m q₂ =>
        by_cases hm : m = n
        · subst hm
          cases q₂ with
          | nil =>
            rw [existsPath_single] at h ⊢
            rw [entryNamed_removeIn_self m fs hwf]
            cases hE : entryNamed m fs with
            | none => rfl
            | some e => rw [hE] at h; simp at h
          | cons m₂ q₃ =>
            rw [existsPath_pair] at h ⊢
            rw [entryNamed_removeIn_self m fs hwf]
            cases hE : entryNamed m fs with
            | none => rfl
            | some e =>
              cases e with
              | file n₀ c₀ => rfl
              | dir n₀ ch =>
                rw [hE] at h
                exact h
        · cases q₂ with
          | nil =>
            rw [existsPath_single] at h ⊢
            rw [entryNamed_removeIn_ne n m fs hm]
            exact h
          | cons m₂ q₃ =>
            rw [existsPath_pair] at h ⊢
            rw [entryNamed_removeIn_ne n m fs hm]
            exact h
    | cons t₃ t₄ =>
      show existsPath (modifyDir n (fun ch => removeFile ch (t₃ :: t₄)) fs)
        q = false
      cases q with
      | nil => simp [existsPath] at h
      | cons m q₂ =>
        by_cases hm : m = n
        · subst hm
          cases q₂ with
          | nil =>
            rw [existsPath_single] at h ⊢
            rw [entryNamed_modifyDir_self m _ fs]
            cases hE : entryNamed m fs with
            | none => rfl
            | some e => rw [hE] at h; simp at h
          | cons m₂ q₃ =>
            rw [existsPath_pair] at h ⊢
            rw [entryNamed_modifyDir_self m _ fs]
            cases hE : entryNamed m fs with
            | none => rfl
            | some e =>
              cases e with
              | file n₀ c₀ => rfl
              | dir n₀ ch =>
                rw [hE] at h
                dsimp only
                exact ih ch (m₂ :: q₃) (wf_child m fs hwf n₀ ch hE) h
        · cases q₂ with
          | nil =>
            rw [existsPath_single] at h ⊢
            rw [entryNamed_modifyDir_ne n m _ fs hm]
            exact h
          | cons m₂ q₃ =>
            rw [existsPath_pair] at h ⊢
            rw [entryNamed_modifyDir_ne n m _ fs hm]
            exact h

/-! ## Run-level lemmas -/

theorem removeOrphansRun_wf :
    ∀ (todo : List FPath) (fs : FS) (d : Nat), wf fs = true →
      wf (removeOrphansRun todo fs d).1 = true := by
  intro todo
  induction todo with
  | nil => intro fs d h; exact h
  | cons q qs ih =>
    intro fs d h
    rw [removeOrphansRun]
    by_cases hex : existsPath fs (stripGzPath q) = true
    · rw [if_pos hex]
      exact ih fs d h
    · rw [if_neg hex]
      exact ih (removeFile fs q) (d + 1) (wf_removeFile q fs h)

theorem removeOrphansRun_preserves_none :
    ∀ (todo : List FPath) (fs : FS) (d : Nat) (q : FPath),
      wf fs = true → lookupFile fs q = none →
      lookupFile (removeOrphansRun todo fs d).1 q = none := by
  intro todo
  induction todo with
  | nil => intro fs d q _ h; exact h
  | cons t ts ih =>
    intro fs d q hwf h
    rw [removeOrphansRun]
    by_cases hex : existsPath fs (stripGzPath t) = true
    · rw [if_pos hex]
      exact ih fs d q hwf h
    · rw [if_neg hex]
      exact ih (removeFile fs t) (d + 1) q (wf_removeFile t fs hwf)
        (lookupFile_removeFile_none t fs q hwf h)

/-- Paths not handed to the orphan loop keep their content. -/
theorem removeOrphansRun_preserves_ne :
    ∀ (todo : List FPath) (fs : FS) (d : Nat) (q : FPath),
      wf fs = true → q ∉ todo →
      lookupFile (removeOrphansRun todo fs d).1 q = lookupFile fs q := by
  intro todo
  induction todo with
  | nil => intro fs d q _ _; rfl
  | cons t ts ih =>
    intro fs d q hwf hq
    rw [removeOrphansRun]
    by_cases hex : existsPath fs (stripGzPath t) = true
    · rw [if_pos hex]
      exact ih fs d q hwf (fun hm => hq (List.mem_cons_of_mem _ hm))
    · rw [if_neg hex]
      rw [ih (removeFile fs t) (d + 1) q (wf_removeFile t fs hwf)
        (fun hm => hq (List.mem_cons_of_mem _ hm))]
      exact lookupFile_removeFile_ne t fs q hwf
        (fun he => hq (he ▸ List.mem_cons_self _ _))

/-- A candidate whose stripped path is already missing when the loop
starts is deleted: deletions only shrink the tree, so a later existence
check cannot revive it. -/
theorem removeOrphansRun_deletes_orphan :
    ∀ (todo : List FPath) (fs : FS) (d : Nat) (q : FPath),
      wf fs = true → q ∈ todo →
      existsPath fs (stripGzPath q) = false →
      lookupFile (removeOrphansRun todo fs d).1 q = none := by
  intro todo
  induction todo with
  | nil => intro fs d q _ h _; simp at h
  | cons t ts ih =>
    intro fs d q hwf hq hex
    rw [removeOrphansRun]
    rcases List.mem_cons.mp hq with rfl | hq₂
    · rw [if_neg (by rw [hex]; simp)]
      exact removeOrphansRun_preserves_none ts (removeFile fs q) (d + 1) q
        (wf_removeFile q fs hwf) (lookupFile_removeFile_self q fs hwf)
    · by_cases hext : existsPath fs (stripGzPath t) = true
      · rw [if_pos hext]
        exact ih fs d q hwf hq₂ hex
      · rw [if_neg hext]
        exact ih (removeFile fs t) (d + 1) q (wf_removeFile t fs hwf) hq₂
          (existsPath_removeFile_false t fs (stripGzPath q) hwf hex)

/-- The deleted counter advances by exactly one per removal: over
pairwise-distinct candidate paths that all lead to regular files, the
final count is the starting count plus the number of candidates no longer
present afterwards. -/
theorem removeOrphansRun_count :
    ∀ (todo : List FPath) (fs : FS) (d : Nat), wf fs = true → todo.Nodup →
      (∀ q ∈ todo, ∃ c, lookupFile fs q = some c) →
      (removeOrphansRun todo fs d).2 =
        d + (todo.filter
          (fun q => (lookupFile (removeOrphansRun todo fs d).1 q).isNone)
          ).length := by
  intro todo
  induction todo with
  | nil => intro fs d _ _ _; simp [removeOrphansRun]
  | cons t ts ih =>
    intro fs d hwf hnd hpres
    obtain ⟨c, hc⟩ := hpres t (by simp)
    have htn : t ∉ ts := (List.nodup_cons.mp hnd).1
    rw [removeOrphansRun]
    by_cases hex : existsPath fs (stripGzPath t) = true
    · rw [if_pos hex]
      have hkeep : lookupFile (removeOrphansRun ts fs d).1 t = some c := by
        rw [removeOrphansRun_preserves_ne ts fs d t hwf htn]
        exact hc
      rw [List.filter_cons, if_neg (by rw [hkeep]; simp)]
      exact ih fs d hwf (List.Nodup.of_cons hnd)
        (fun q hq => hpres q (List.mem_cons_of_mem _ hq))
    · rw [if_neg hex]
      have hgone :
          lookupFile (removeOrphansRun ts (removeFile fs t) (d + 1)).1 t =
            none :=
        removeOrphansRun_preserves_none ts (removeFile fs t) (d + 1) t
          (wf_removeFile t fs hwf) (lookupFile_removeFile_self t fs hwf)
      have hpres₂ : ∀ q ∈ ts, ∃ cq,
          lookupFile (removeFile fs t) q = some cq := by
        intro q hq
        obtain ⟨cq, hcq⟩ := hpres q (List.mem_cons_of_mem _ hq)
        refine ⟨cq, ?_⟩
        rw [lookupFile_removeFile_ne t fs q hwf
          (fun he => htn (he ▸ hq))]
        exact hcq
      rw [List.filter_cons, if_pos (by rw [hgone]; simp), List.length_cons,
        ih (removeFile fs t) (d + 1) (wf_removeFile t fs hwf)
          (List.Nodup.of_cons hnd) hpres₂]
      omega

/-- State invariants established by one pass of the compression loop with
`force = false` over pairwise-distinct non-`.gz` paths: afterwards every
processed file has an up-to-date companion, non-companion paths are
untouched, and the scan and well-formedness are preserved. -/
theorem runCompress_state (be : GzipBackend) (H : Bytes → Bytes)
    (level : Nat) :
    ∀ (todo : List FPath) (fs : FS) (acc r : GzipStaticResult) (fs₂ : FS),
      todo.Nodup →
      (∀ p ∈ todo, strEndsWith (lastName p) ".gz" = false ∧ p ≠ []) →
      runCompress be H level false todo fs acc = .ok (r, fs₂) →
      (∀ p ∈ todo, companionUpToDate be H fs₂ p) ∧
      (∀ q, (∀ p ∈ todo, q ≠ appendGz p) →
        lookupFile fs₂ q = lookupFile fs q) ∧
      (∀ ext, find_static_files ext fs₂ = find_static_files ext fs) ∧
      (wf fs = true → wf fs₂ = true) := by
  intro todo
  induction todo with
  | nil =>
    intro fs acc r fs₂ _ _ hok
    rw [runCompress] at hok
    cases hok
    exact ⟨by simp, fun q _ => rfl, fun ext => rfl, fun h => h⟩
  | cons p ps ih =>
    intro fs acc r fs₂ hnd hcond hok
    rw [runCompress] at hok
    cases hci : compress_idempotent be H fs p level false with
    | error e => rw [hci] at hok; cases hok
    | ok rf =>
      obtain ⟨r₀, fs₁⟩ := rf
      rw [hci] at hok
      dsimp only at hok
      obtain ⟨hcu₁, hfr₁, hfind₁, hwf₁⟩ :=
        compress_idempotent_ok_state be H fs p level r₀ fs₁
          (hcond p (by simp)).1 (hcond p (by simp)).2 hci
      obtain ⟨hcu₂, hfr₂, hfind₂, hwf₂⟩ :=
        ih fs₁ (bump acc r₀) r fs₂ (List.Nodup.of_cons hnd)
          (fun p' hp' => hcond p' (List.mem_cons_of_mem _ hp')) hok
      refine ⟨?_, ?_, ?_, ?_⟩
      · intro p' hp'
        rcases List.mem_cons.mp hp' with rfl | hp'
        · obtain ⟨c, gzc, hc, hgzc, hH⟩ := hcu₁
          refine ⟨c, gzc, ?_, ?_, hH⟩
          · rw [hfr₂ p' ?_]
            · exact hc
            · intro p₂ hp₂
              exact ne_appendGz_of_not_gz p' p₂
                (hcond p₂ (List.mem_cons_of_mem _ hp₂)).2
                (hcond p' (by simp)).1
          · rw [hfr₂ (appendGz p') ?_]
            · exact hgzc
            · intro p₂ hp₂ he
              have heq := appendGz_inj p' p₂ (hcond p' (by simp)).2
                (hcond p₂ (List.mem_cons_of_mem _ hp₂)).2 he
              exact (List.nodup_cons.mp hnd).1 (by rw [heq]; exact hp₂)
        · exact hcu₂ p' hp'
      · intro q hq
        rw [hfr₂ q (fun p₂ hp₂ => hq p₂ (List.mem_cons_of_mem _ hp₂)),
          hfr₁ q (hq p (by simp))]
      · intro ext
        rw [hfind₂ ext, hfind₁ ext]
      · intro h
        exact hwf₂ (hwf₁ h)

/-- When every file already has an up-to-date companion, the loop skips
them all and leaves the filesystem untouched. -/
theorem runCompress_all_skip (be : GzipBackend) (H : Bytes → Bytes)
    (level : Nat) :
    ∀ (todo : List FPath) (fs : FS) (acc : GzipStaticResult),
      (∀ p ∈ todo, companionUpToDate be H fs p ∧
        strEndsWith (lastName p) ".gz" = false ∧ p ≠ []) →
      runCompress be H level false todo fs acc =
        .ok ({ acc with skipped := acc.skipped + todo.length }, fs) := by
  intro todo
  induction todo with
  | nil =>
    intro fs acc _
    rw [runCompress]
    simp
  | cons p ps ih =>
    intro fs acc hcond
    rw [runCompress,
      compress_idempotent_skip be H fs p level (hcond p (by simp)).2.1
        (hcond p (by simp)).2.2 (hcond p (by simp)).1]
    dsimp only
    rw [ih fs (bump acc SKIPPED)
      (fun p' hp' => hcond p' (List.mem_cons_of_mem _ hp'))]
    have hb : bump acc SKIPPED =
        { acc with skipped := acc.skipped + 1 } := rfl
    rw [hb]
    simp only [List.length_cons]
    have harith : acc.skipped + 1 + ps.length =
        acc.skipped + (ps.length + 1) := by omega
    rw [harith]

/-- Counting: each processed file bumps exactly one of the first three
counters and never touches `deleted`. -/
theorem runCompress_counts (be : GzipBackend) (H : Bytes → Bytes)
    (level : Nat) (force : Bool) :
    ∀ (todo : List FPath) (fs : FS) (acc r : GzipStaticResult) (fs₂ : FS),
      runCompress be H level force todo fs acc = .ok (r, fs₂) →
      r.created + r.updated + r.skipped =
        acc.created + acc.updated + acc.skipped + todo.length ∧
      r.deleted = acc.deleted := by
  intro todo
  induction todo with
  | nil =>
    intro fs acc r fs₂ hok
    rw [runCompress] at hok
    cases hok
    exact ⟨by simp, rfl⟩
  | cons p ps ih =>
    intro fs acc r fs₂ hok
    rw [runCompress] at hok
    cases hci : compress_idempotent be H fs p level force with
    | error e => rw [hci] at hok; cases hok
    | ok rf =>
      obtain ⟨r₀, fs₁⟩ := rf
      rw [hci] at hok
      dsimp only at hok
      obtain ⟨h₁, h₂⟩ := ih fs₁ (bump acc r₀) r fs₂ hok
      rcases compress_idempotent_outcome be H fs p level force r₀ fs₁ hci
        with h | h | h
      · subst h
        refine ⟨?_, ?_⟩
        · rw [h₁]
          have hb : bump acc COMPRESSED =
              { acc with created := acc.created + 1 } := rfl
          rw [hb]
          simp only [List.length_cons]
          omega
        · rw [h₂]; rfl
      · subst h
        refine ⟨?_, ?_⟩
        · rw [h₁]
          have hb : bump acc RECOMPRESSED =
              { acc with updated := acc.updated + 1 } := rfl
          rw [hb]
          simp only [List.length_cons]
          omega
        · rw [h₂]; rfl
      · subst h
        refine ⟨?_, ?_⟩
        · rw [h₁]
          have hb : bump acc SKIPPED =
              { acc with skipped := acc.skipped + 1 } := rfl
          rw [hb]
          simp only [List.length_cons]
          omega
        · rw [h₂]; rfl

/-! ## Lemmas about `lastIdxOf` (Python `str.rfind`) -/

theorem lastIdxOf_eq_none_iff (c : Char) (l : List Char) :
    lastIdxOf c l = none ↔ c ∉ l := by
  induction l with
  | nil => simp [lastIdxOf]
  | cons a t ih =>
    rw [lastIdxOf]
    cases h : lastIdxOf c t with
    | some i =>
      simp only [List.mem_cons]
      constructor
      · intro hh; cases hh
      · intro hh
        exfalso
        apply hh
        right
        by_contra hct
        rw [(ih.mpr hct)] at h
        cases h
    | none =>
      have hct : c ∉ t := ih.mp h
      by_cases hac : a == c
      · simp only [if_pos hac, List.mem_cons]
        constructor
        · intro hh; cases hh
        · intro hh
          exact absurd (Or.inl (eq_of_beq hac).symm) hh
      · simp only [if_neg hac, List.mem_cons]
        constructor
        · intro _ hh
          rcases hh with hh | hh
          · exact hac (beq_iff_eq.mpr hh.symm)
          · exact hct hh
        · intro _; trivial

/-- `lastIdxOf` returns the index of the last occurrence. -/
theorem lastIdxOf_get (c : Char) :
    ∀ (l : List Char) (i : Nat), lastIdxOf c l = some i →
      l[i]? = some c ∧ ∀ j, i < j → l[j]? ≠ some c := by
  intro l
  induction l with
  | nil => intro i h; simp [lastIdxOf] at h
  | cons a t ih =>
    intro i h
    rw [lastIdxOf] at h
    cases ht : lastIdxOf c t with
    | some k =>
      rw [ht] at h
      cases h
      obtain ⟨h₁, h₂⟩ := ih k ht
      refine ⟨by simpa using h₁, ?_⟩
      intro j hj
      cases j with
      | zero => omega
      | succ j₂ =>
        simp only [List.getElem?_cons_succ]
        exact h₂ j₂ (by omega)
    | none =>
      rw [ht] at h
      by_cases hac : a == c
      · rw [if_pos hac] at h
        cases h
        refine ⟨by simp [eq_of_beq hac], ?_⟩
        intro j hj
        cases j with
        | zero => omega
        | succ j₂ =>
          simp only [List.getElem?_cons_succ]
          intro hc
          have hmem : c ∈ t := by
            rcases List.getElem?_eq_some.mp hc with ⟨hlt, hg⟩
            rw [← hg]
            exact List.getElem_mem hlt
          exact (lastIdxOf_eq_none_iff c t).mp ht hmem
      · rw [if_neg hac] at h
        cases h

theorem lastIdxOf_getLast (c : Char) :
    ∀ l : List Char, l.getLast? = some c →
      lastIdxOf c l = some (l.length - 1) := by
  intro l
  induction l with
  | nil => intro h; simp at h
  | cons a t ih =>
    intro h
    cases t with
    | nil =>
      simp only [List.getLast?_singleton, Option.some.injEq] at h
      subst h
      simp [lastIdxOf]
    | cons b t₂ =>
      rw [List.getLast?_cons_cons] at h
      rw [lastIdxOf, ih h]
      simp only [List.length_cons, Option.some.injEq]
      omega

/-! ## Claim theorems -/

/-- C8: `get_extension` returns the substring of the filename starting at
the last interior dot (dot included) — `lastIdxOf` being genuinely the
last occurrence — and returns the empty string for a name with no dot, a
name ending in a dot, and a name starting with a dot that contains no
further dot. -/
theorem get_extension_spec (filename : String) :
    (∀ i, lastIdxOf '.' filename.data = some i →
      (filename.data[i]? = some '.' ∧
        ∀ j, i < j → filename.data[j]? ≠ some '.') ∧
      (0 < i → i + 1 < filename.data.length →
        get_extension filename = String.mk (filename.data.drop i))) ∧
    ('.' ∉ filename.data → get_extension filename = "") ∧
    (filename.data.getLast? = some '.' → get_extension filename = "") ∧
    (∀ t, filename.data = '.' :: t → '.' ∉ t →
      get_extension filename = "") := by
  refine ⟨?_, ?_, ?_, ?_⟩
  · intro i hi
    refine ⟨lastIdxOf_get '.' filename.data i hi, ?_⟩
    intro h0 hlt
    rw [get_extension, hi]
    dsimp only
    rw [if_pos]
    constructor
    · exact h0
    · omega
  · intro h
    rw [get_extension, (lastIdxOf_eq_none_iff '.' filename.data).mpr h]
  · intro h
    rw [get_extension, lastIdxOf_getLast '.' filename.data h]
    dsimp only
    rw [if_neg]
    intro hcontra
    omega
  · intro t ht hnt
    rw [get_extension, ht]
    rw [show lastIdxOf '.' ('.' :: t) = some 0 by
      rw [lastIdxOf, (lastIdxOf_eq_none_iff '.' t).mpr hnt]
      simp]
    dsimp only
    rw [if_neg]
    intro hcontra
    omega

/-- C6: for every file — a path together with its stored bytes — and every
positive block size, `hash_file_contents` returns the digest of the hash
algorithm applied to the file's entire logical content (the decompressed
bytes when the path ends in `.gz`, the raw bytes otherwise), and the
digest does not depend on the block size. -/
theorem hash_file_contents_spec (be : GzipBackend) (H : Bytes → Bytes)
    (filepath : String) (content : Bytes) (block_size : Nat)
    (hbs : 0 < block_size) :
    (hash_file_contents be.gunzip H filepath content block_size =
      if strEndsWith filepath ".gz" then H (be.gunzip content)
      else H content) ∧
    (∀ bs₂, 0 < bs₂ →
      hash_file_contents be.gunzip H filepath content bs₂ =
        hash_file_contents be.gunzip H filepath content block_size) := by
  constructor
  · exact hash_file_contents_eq be.gunzip H be.gunzip_nil be.gunzip_ext
      filepath content block_size (Nat.pos_iff_ne_zero.mp hbs)
  · intro bs₂ hbs₂
    rw [hash_file_contents_eq be.gunzip H be.gunzip_nil be.gunzip_ext
      filepath content block_size (Nat.pos_iff_ne_zero.mp hbs),
      hash_file_contents_eq be.gunzip H be.gunzip_nil be.gunzip_ext
      filepath content bs₂ (Nat.pos_iff_ne_zero.mp hbs₂)]

/-- C7: `find_static_files` never yields a regular file whose name ends in
`.gz`, for every extension set — even one containing `.gz` or `.tar`. -/
theorem find_static_files_never_gz (extensions : List String) (fs : FS)
    (q : FPath) (h : q ∈ find_static_files extensions fs) :
    strEndsWith (lastName q) ".gz" = false :=
  find_static_files_not_gz extensions q fs h

/-- C4: requesting compression level 11 while the zopfli backend is not
installed raises `ModuleNotFoundError` — for every filesystem and path,
regardless of the file's size or even its existence; never a silent
fallback. -/
theorem compress_path_no_zopfli (be : GzipBackend) (fs : FS) (p : FPath)
    (block_size : Nat) (hz : be.zopfli = none) :
    compress_path be fs p 11 block_size = .error .moduleNotFound := by
  rw [compress_path, if_pos rfl, hz]

/-- C3 counterexample: the claim that the in-memory high-ratio backend is
invoked only when the file size is *below* the 50 MiB ceiling fails at a
source of exactly `ZOPFLI_MAXIMUM_SIZE` bytes, where the code (which tests
`size > ZOPFLI_MAXIMUM_SIZE`) still invokes zopfli. -/
theorem compress_path_zopfli_boundary :
    ¬ (∀ (be : GzipBackend) (fs : FS) (p : FPath) (c : Bytes)
        (z : Bytes → Bytes),
        be.zopfli = some z → lookupFile fs p = some c →
        compress_path be fs p 11 DEFAULT_BLOCK_SIZE =
          .ok (writeFile fs (appendGz p) (z c), false) →
        c.length < ZOPFLI_MAXIMUM_SIZE) := by
  intro hclaim
  have hlen : (List.replicate ZOPFLI_MAXIMUM_SIZE 0).length =
      ZOPFLI_MAXIMUM_SIZE := List.length_replicate _ _
  have hw : writable
      [Entry.file "big.html" (List.replicate ZOPFLI_MAXIMUM_SIZE 0)]
      (appendGz ["big.html"]) = true := by
    rw [show appendGz ["big.html"] = ["big.html.gz"] by simp [appendGz],
      writable_single]
    dsimp only [entryNamed, entryName]
    rw [if_neg (by decide)]
  have h := hclaim tagGzip
    [.file "big.html" (List.replicate ZOPFLI_MAXIMUM_SIZE 0)]
    ["big.html"] (List.replicate ZOPFLI_MAXIMUM_SIZE 0)
    (fun b => 1 :: b) rfl
    (by rw [lookupFile_single]; rfl)
    (by
      rw [compress_path, if_pos rfl]
      dsimp only [tagGzip]
      rw [lookupFile_single]
      dsimp only [entryNamed, entryName]
      rw [if_pos rfl]
      dsimp only
      rw [if_neg (by rw [hlen]; omega), if_pos hw])
  rw [hlen] at h
  omega

/-- C3 amended: with zopfli available and the companion target writable
(free, or held by a regular file — a directory there makes the write raise
in every branch), level 11 uses the in-memory backend exactly when the
source size does not exceed the 50 MiB ceiling; a file strictly above the
ceiling surfaces a warning and transparently falls back to the standard
streaming backend at its default level 9 — the call still succeeds rather
than failing. -/
theorem compress_path_zopfli_spec (be : GzipBackend) (fs : FS) (p : FPath)
    (bs : Nat) (c : Bytes) (z : Bytes → Bytes)
    (hz : be.zopfli = some z) (hc : lookupFile fs p = some c)
    (hbs : 0 < bs)
    (hfree : existsPath fs (appendGz p) = false ∨
      ∃ gzc, lookupFile fs (appendGz p) = some gzc) :
    (c.length ≤ ZOPFLI_MAXIMUM_SIZE →
      compress_path be fs p 11 bs =
        .ok (writeFile fs (appendGz p) (z c), false)) ∧
    (c.length > ZOPFLI_MAXIMUM_SIZE →
      compress_path be fs p 11 bs =
        .ok (writeFile fs (appendGz p)
          (be.std DEFAULT_COMPRESSION_LEVEL c), true)) := by
  have hwr : writable fs (appendGz p) = true := by
    rcases hfree with hfree | ⟨gzc, hgzc⟩
    · exact writable_appendGz p fs c hc hfree
    · exact writable_of_lookup (appendGz p) fs gzc hgzc
  constructor
  · intro hsmall
    rw [compress_path, if_pos rfl, hz]
    dsimp only
    rw [hc]
    dsimp only
    rw [if_neg (by omega), if_pos hwr]
  · intro hbig
    rw [compress_path, if_pos rfl, hz]
    dsimp only
    rw [hc]
    dsimp only
    rw [if_pos hbig, if_pos hwr,
      joinBlocks_chunksOf bs (Nat.pos_iff_ne_zero.mp hbs)]

/-- C9: for each supported compression level (6, 9 and 11, the latter with
the zopfli module present), compressing a file holding the spec's test
bytes and decompressing the written companion yields the original bytes. -/
theorem compress_path_roundtrip (be : GzipBackend) (fs : FS) (p : FPath)
    (bs lvl : Nat) (hlvl : lvl = 6 ∨ lvl = 9 ∨ lvl = 11)
    (hz : be.zopfli.isSome = true)
    (hc : lookupFile fs p = some testData) (hbs : 0 < bs)
    (hfree : existsPath fs (appendGz p) = false ∨
      ∃ gzc, lookupFile fs (appendGz p) = some gzc) :
    ∃ fw : FS × Bool, compress_path be fs p lvl bs = .ok fw ∧
      ∃ w, lookupFile fw.1 (appendGz p) = some w ∧
        be.gunzip w = testData := by
  have hwr : writable fs (appendGz p) = true := by
    rcases hfree with hfree | ⟨gzc, hgzc⟩
    · exact writable_appendGz p fs testData hc hfree
    · exact writable_of_lookup (appendGz p) fs gzc hgzc
  obtain ⟨fw, hcp⟩ :=
    compress_path_ok_intro be fs p lvl bs testData hc hwr (fun _ => hz)
  obtain ⟨c₂, w, hc₂, -, hfs, hrt⟩ :=
    compress_path_ok_elim be fs p lvl bs fw hcp
  rw [hc] at hc₂
  cases hc₂
  refine ⟨fw, hcp, w, ?_, hrt (Nat.pos_iff_ne_zero.mp hbs)⟩
  rw [hfs]
  exact lookupFile_writeFile_self (appendGz p) w fs hwr

/-- C1: outcome of `compress_idempotent` for a discovered static file,
following the decision procedure: nothing at the companion path —
`COMPRESSED`; a companion — a regular file at `<path>.gz` — present under
`force` — `RECOMPRESSED` with the hash comparison skipped (no assumption
on the companion's digest is needed); companion, no force, equal digests —
`SKIPPED` with the filesystem returned untouched; companion, no force,
different digests — `RECOMPRESSED`.  (A directory occupying the companion
path is not a companion: there the source raises — `IsADirectoryError` on
the forced write, the failed hash read otherwise.) -/
theorem compress_idempotent_spec (be : GzipBackend) (H : Bytes → Bytes)
    (fs : FS) (p : FPath) (c : Bytes) (level : Nat)
    (hc : lookupFile fs p = some c)
    (hp : strEndsWith (lastName p) ".gz" = false) (hpn : p ≠ [])
    (hz : level = 11 → be.zopfli.isSome = true) :
    (existsPath fs (appendGz p) = false →
      ∀ force, ∃ fs₂, compress_idempotent be H fs p level force =
        .ok (COMPRESSED, fs₂)) ∧
    (∀ gzc, lookupFile fs (appendGz p) = some gzc →
      ∃ fs₂, compress_idempotent be H fs p level true =
        .ok (RECOMPRESSED, fs₂)) ∧
    (∀ gzc, lookupFile fs (appendGz p) = some gzc →
      H c = H (be.gunzip gzc) →
      compress_idempotent be H fs p level false = .ok (SKIPPED, fs)) ∧
    (∀ gzc, lookupFile fs (appendGz p) = some gzc →
      H c ≠ H (be.gunzip gzc) →
      ∃ fs₂, compress_idempotent be H fs p level false =
        .ok (RECOMPRESSED, fs₂)) := by
  refine ⟨?_, ?_, ?_, ?_⟩
  · intro hEx force
    obtain ⟨fw, hcp⟩ := compress_path_ok_intro be fs p level
      DEFAULT_BLOCK_SIZE c hc (writable_appendGz p fs c hc hEx) hz
    rw [compress_idempotent]
    rw [hEx]
    simp only [Bool.false_eq_true, if_false]
    rw [hcp]
    exact ⟨fw.1, rfl⟩
  · intro gzc hgzc
    obtain ⟨fw, hcp⟩ := compress_path_ok_intro be fs p level
      DEFAULT_BLOCK_SIZE c hc (writable_of_lookup (appendGz p) fs gzc hgzc)
      hz
    rw [compress_idempotent, existsPath_of_lookup (appendGz p) fs gzc hgzc]
    simp only [if_true]
    rw [hcp]
    exact ⟨fw.1, rfl⟩
  · intro gzc hgzc hH
    exact compress_idempotent_skip be H fs p level hp hpn
      ⟨c, gzc, hc, hgzc, hH⟩
  · intro gzc hgzc hH
    obtain ⟨fw, hcp⟩ := compress_path_ok_intro be fs p level
      DEFAULT_BLOCK_SIZE c hc (writable_of_lookup (appendGz p) fs gzc hgzc)
      hz
    have hEx : existsPath fs (appendGz p) = true :=
      existsPath_of_lookup (appendGz p) fs gzc hgzc
    rw [compress_idempotent, hEx]
    simp only [if_true]
    rw [if_neg (show ¬(false = true) by simp)]
    rw [hashPath_raw be H fs p c hc hp,
      hashPath_gz be H fs (appendGz p) gzc hgzc
        (strEndsWith_lastName_appendGz p hpn)]
    dsimp only
    rw [if_neg hH, hcp]
    exact ⟨fw.1, rfl⟩

/-- C10: in every successful `gzip_static` run, created + updated +
skipped equals the number of discovered static files (the per-file step
never reports `DELETED`), and `deleted = 0` whenever orphan removal is
off. -/
theorem gzip_static_counts (be : GzipBackend) (H : Bytes → Bytes) (fs : FS)
    (extensions : List String) (level : Nat) (force remove_orphans : Bool)
    (pre : String) (r : GzipStaticResult) (fs₂ : FS)
    (hok : gzip_static be H fs extensions level force remove_orphans pre =
      .ok (r, fs₂)) :
    r.created + r.updated + r.skipped =
      (find_static_files extensions fs).length ∧
    (remove_orphans = false → r.deleted = 0) ∧
    (∀ (fs₃ : FS) (p : FPath) (r₀ : Nat) (fs₄ : FS),
      compress_idempotent be H fs₃ p level force = .ok (r₀, fs₄) →
      r₀ ≠ DELETED) := by
  rw [gzip_static] at hok
  cases hrc : runCompress be H level force
      (find_static_files extensions fs) fs ⟨0, 0, 0, 0⟩ with
  | error e => rw [hrc] at hok; cases hok
  | ok rf =>
    obtain ⟨res, fs₁⟩ := rf
    rw [hrc] at hok
    dsimp only at hok
    obtain ⟨hcount, hdel⟩ := runCompress_counts be H level force
      (find_static_files extensions fs) fs ⟨0, 0, 0, 0⟩ res fs₁ hrc
    have hout : ∀ (fs₃ : FS) (p : FPath) (r₀ : Nat) (fs₄ : FS),
        compress_idempotent be H fs₃ p level force = .ok (r₀, fs₄) →
        r₀ ≠ DELETED := by
      intro fs₃ p r₀ fs₄ h
      rcases compress_idempotent_outcome be H fs₃ p level force r₀ fs₄ h
        with h | h | h <;> (subst h; decide)
    cases remove_orphans with
    | false =>
      simp only [Bool.false_eq_true, if_false] at hok
      cases hok
      refine ⟨by simpa using hcount, fun _ => by simpa using hdel, hout⟩
    | true =>
      simp only [if_true] at hok
      cases hok
      refine ⟨by simpa using hcount, by simp, hout⟩

/-- C2: idempotence.  After one successful `gzip_static` pass with
`force = false` (and no orphan removal) over a well-formed tree, a second
identical pass skips every eligible file, reports
`created = recompressed = deleted = 0`, and leaves the filesystem exactly
as it was. -/
theorem gzip_static_idempotent (be : GzipBackend) (H : Bytes → Bytes)
    (fs₀ : FS) (extensions : List String) (level : Nat) (pre : String)
    (r₁ : GzipStaticResult) (fs₁ : FS)
    (hwf : wf fs₀ = true)
    (h1 : gzip_static be H fs₀ extensions level false false pre =
      .ok (r₁, fs₁)) :
    gzip_static be H fs₁ extensions level false false pre =
      .ok (⟨0, 0, (find_static_files extensions fs₀).length, 0⟩, fs₁) := by
  rw [gzip_static] at h1
  cases hrc : runCompress be H level false
      (find_static_files extensions fs₀) fs₀ ⟨0, 0, 0, 0⟩ with
  | error e => rw [hrc] at h1; cases h1
  | ok rf =>
    obtain ⟨res, fs₁'⟩ := rf
    rw [hrc] at h1
    dsimp only at h1
    simp only [Bool.false_eq_true, if_false] at h1
    cases h1
    have hconds : ∀ p ∈ find_static_files extensions fs₀,
        strEndsWith (lastName p) ".gz" = false ∧ p ≠ [] := by
      intro p hp
      exact ⟨find_static_files_not_gz extensions p fs₀ hp,
        find_static_files_ne_nil extensions fs₀ p hp⟩
    obtain ⟨hcu, -, hfind, -⟩ := runCompress_state be H level
      (find_static_files extensions fs₀) fs₀ ⟨0, 0, 0, 0⟩ r₁ fs₁
      (find_static_files_nodup extensions fs₀ hwf) hconds hrc
    rw [gzip_static, hfind extensions]
    rw [runCompress_all_skip be H level
      (find_static_files extensions fs₀) fs₁ ⟨0, 0, 0, 0⟩
      (fun p hp => ⟨hcu p hp, (hconds p hp).1, (hconds p hp).2⟩)]
    dsimp only
    rw [if_neg (show ¬(false = true) by simp)]
    simp

/-! ## Lemmas about the orphan scan -/

theorem orphanScan_ne_nil (ext : List String) (pre : String) :
    ∀ (todo : FS) (q : FPath), q ∈ orphanScan ext pre todo →
      q ≠ [] := by
  intro todo
  induction todo with
  | nil => intro q h; simp [orphanScan] at h
  | cons e rest ih =>
    intro q h
    cases e with
    | file n c =>
      rw [orphanScan] at h
      rcases List.mem_append.mp h with h₁ | h₁
      · split at h₁
        · simp only [List.mem_singleton] at h₁
          rw [h₁]; simp
        · simp at h₁
      · exact ih q h₁
    | dir n ch =>
      rw [orphanScan] at h
      rcases List.mem_append.mp h with h₁ | h₁
      · obtain ⟨q₂, -, rfl⟩ := List.mem_map.mp h₁
        simp
      · exact ih q h₁

/-- Membership in one level of the candidate scan. -/
theorem mem_orphanScan (ext : List String) (pre : String) :
    ∀ (todo : FS) (q : FPath), q ∈ orphanScan ext pre todo ↔
      ((∃ n c, q = [n] ∧ .file n c ∈ todo ∧
        strEndsWith n ".gz" = true ∧
        get_extension (strDropRight (pre ++ "/" ++ n) 3) ∈ ext) ∨
      (∃ d ch q₂, q = d :: q₂ ∧ .dir d ch ∈ todo ∧
        q₂ ∈ orphanScan ext (pre ++ "/" ++ d) ch)) := by
  intro todo
  induction todo with
  | nil => intro q; simp [orphanScan]
  | cons e rest ih =>
    intro q
    cases e with
    | file n c =>
      rw [orphanScan, List.mem_append]
      constructor
      · rintro (h | h)
        · split at h
          · next hcond =>
            simp only [List.mem_singleton] at h
            exact Or.inl ⟨n, c, h, List.mem_cons_self _ _, hcond.1,
              hcond.2⟩
          · simp at h
        · rcases (ih q).mp h with
            ⟨n', c', hq, hm, h1, h2⟩ | ⟨d, ch, q₂, hq, hm, hmem⟩
          · exact Or.inl ⟨n', c', hq, List.mem_cons_of_mem _ hm, h1, h2⟩
          · exact Or.inr ⟨d, ch, q₂, hq, List.mem_cons_of_mem _ hm, hmem⟩
      · rintro (⟨n', c', hq, hm, h1, h2⟩ | ⟨d, ch, q₂, hq, hm, hmem⟩)
        · rcases List.mem_cons.mp hm with heq | hm₂
          · injection heq with he₁ he₂
            subst he₁
            left
            rw [if_pos ⟨h1, h2⟩]
            simp [hq]
          · exact Or.inr ((ih q).mpr
              (Or.inl ⟨n', c', hq, hm₂, h1, h2⟩))
        · rcases List.mem_cons.mp hm with heq | hm₂
          · cases heq
          · exact Or.inr ((ih q).mpr
              (Or.inr ⟨d, ch, q₂, hq, hm₂, hmem⟩))
    | dir n ch =>
      rw [orphanScan, List.mem_append]
      constructor
      · rintro (h | h)
        · obtain ⟨q₂, hmem, rfl⟩ := List.mem_map.mp h
          exact Or.inr ⟨n, ch, q₂, rfl, List.mem_cons_self _ _, hmem⟩
        · rcases (ih q).mp h with
            ⟨n', c', hq, hm, h1, h2⟩ | ⟨d, ch₂, q₂, hq, hm, hmem⟩
          · exact Or.inl ⟨n', c', hq, List.mem_cons_of_mem _ hm, h1, h2⟩
          · exact Or.inr ⟨d, ch₂, q₂, hq, List.mem_cons_of_mem _ hm, hmem⟩
      · rintro (⟨n', c', hq, hm, h1, h2⟩ | ⟨d, ch₂, q₂, hq, hm, hmem⟩)
        · rcases List.mem_cons.mp hm with heq | hm₂
          · cases heq
          · exact Or.inr ((ih q).mpr
              (Or.inl ⟨n', c', hq, hm₂, h1, h2⟩))
        · rcases List.mem_cons.mp hm with heq | hm₂
          · injection heq with he₁ he₂
            subst he₁
            subst he₂
            left
            exact List.mem_map.mpr ⟨q₂, hmem, hq.symm⟩
          · exact Or.inr ((ih q).mpr
              (Or.inr ⟨d, ch₂, q₂, hq, hm₂, hmem⟩))

theorem head_mem_orphanScan (ext : List String) (pre : String) (es : FS)
    (q : FPath) (h : q ∈ orphanScan ext pre es) :
    ∃ n, q.head? = some n ∧ n ∈ es.map entryName := by
  rcases (mem_orphanScan ext pre es q).mp h with
    ⟨n, c, hq, hm, -, -⟩ | ⟨d, ch, q₂, hq, hm, -⟩
  · exact ⟨n, by rw [hq]; rfl, List.mem_map.mpr ⟨.file n c, hm, rfl⟩⟩
  · exact ⟨d, by rw [hq]; rfl, List.mem_map.mpr ⟨.dir d ch, hm, rfl⟩⟩

/-- In a well-formed tree the candidate paths are pairwise distinct. -/
theorem orphanScan_nodup (ext : List String) :
    ∀ (pre : String) (es : FS), wf es = true →
      (orphanScan ext pre es).Nodup
  | _, [], _ => by simp [orphanScan]
  | pre, .file n c :: rest, hwf => by
    rw [wf_cons] at hwf
    obtain ⟨hc, -, hrest⟩ := hwf
    rw [contains_false_iff] at hc
    rw [orphanScan]
    apply List.Nodup.append
    · split
      · simp
      · simp
    · exact orphanScan_nodup ext pre rest hrest
    · intro q hq₁ hq₂
      split at hq₁
      · simp only [List.mem_singleton] at hq₁
        obtain ⟨m, hm₁, hm₂⟩ := head_mem_orphanScan ext pre rest q hq₂
        rw [hq₁] at hm₁
        simp only [List.head?_cons, Option.some.injEq] at hm₁
        rw [← hm₁] at hm₂
        exact hc hm₂
      · simp at hq₁
  | pre, .dir n ch :: rest, hwf => by
    rw [wf_cons] at hwf
    obtain ⟨hc, he, hrest⟩ := hwf
    rw [contains_false_iff] at hc
    rw [orphanScan]
    apply List.Nodup.append
    · exact (orphanScan_nodup ext (pre ++ "/" ++ n) ch he).map
        (fun a b hab => by simpa using hab)
    · exact orphanScan_nodup ext pre rest hrest
    · intro q hq₁ hq₂
      obtain ⟨q₂, -, rfl⟩ := List.mem_map.mp hq₁
      obtain ⟨m, hm₁, hm₂⟩ := head_mem_orphanScan ext pre rest _ hq₂
      simp only [List.head?_cons, Option.some.injEq] at hm₁
      rw [← hm₁] at hm₂
      exact hc hm₂

theorem mem_of_entryNamed (n : String) (es : FS) (e : Entry)
    (h : entryNamed n es = some e) : e ∈ es := by
  induction es with
  | nil => simp [entryNamed] at h
  | cons e₀ rest ih =>
    rw [entryNamed] at h
    by_cases h₀ : entryName e₀ = n
    · rw [if_pos h₀] at h
      cases h
      exact List.mem_cons_self _ _
    · rw [if_neg h₀] at h
      exact List.mem_cons_of_mem _ (ih h)

theorem entryNamed_of_mem (es : FS) (hwf : wf es = true) (e : Entry)
    (he : e ∈ es) : entryNamed (entryName e) es = some e := by
  induction es with
  | nil => simp at he
  | cons e₀ rest ih =>
    rw [wf_cons] at hwf
    obtain ⟨hc, -, hrest⟩ := hwf
    rw [contains_false_iff] at hc
    rcases List.mem_cons.mp he with rfl | he₂
    · rw [entryNamed, if_pos rfl]
    · rw [entryNamed, if_neg, ih hrest he₂]
      intro heq
      exact hc (by
        rw [heq]
        exact List.mem_map.mpr ⟨e, he₂, rfl⟩)

theorem stripGzPath_single (n : String) :
    stripGzPath [n] =
      if strDropRight n 3 = "" then [] else [strDropRight n 3] := by
  simp [stripGzPath]

theorem stripGzPath_pair (d a : String) (r : List String) :
    stripGzPath (d :: a :: r) = d :: stripGzPath (a :: r) := by
  simp [stripGzPath]

theorem pathStr_single (pre n : String) : pathStr pre [n] = pre ++ "/" ++ n :=
  rfl

theorem pathStr_pair (pre d a : String) (r : List String) :
    pathStr pre (d :: a :: r) = pathStr (pre ++ "/" ++ d) (a :: r) := rfl

theorem existsPath_dir_step (fs : FS) (d m : String) (ch : FS)
    (h : entryNamed d fs = some (.dir m ch)) (s : FPath) :
    existsPath fs (d :: s) = existsPath ch s := by
  cases s with
  | nil =>
    rw [existsPath_single, h]
    simp [existsPath]
  | cons a r =>
    rw [existsPath_pair, h]

/-- The candidate scan resolved: under distinct sibling names a path is a
candidate exactly when it leads to a regular file whose name ends in
`.gz` and whose path string with the trailing three characters stripped
carries a tracked extension. -/
theorem mem_orphanScan_path (ext : List String) (q : FPath) :
    ∀ (pre : String) (fs : FS), wf fs = true →
      (q ∈ orphanScan ext pre fs ↔
        (∃ c, lookupFile fs q = some c) ∧
        strEndsWith (lastName q) ".gz" = true ∧
        get_extension (strDropRight (pathStr pre q) 3) ∈ ext) := by
  induction q with
  | nil =>
    intro pre fs _
    constructor
    · intro h
      exact absurd rfl (orphanScan_ne_nil ext pre fs [] h)
    · rintro ⟨⟨c, hc⟩, -⟩
      simp [lookupFile] at hc
  | cons d q₂ ih =>
    intro pre fs hwf
    cases q₂ with
    | nil =>
      rw [mem_orphanScan]
      constructor
      · rintro (⟨n, c, hq, hm, h1, h2⟩ | ⟨d₀, ch, q₃, hq, hm, hmem⟩)
        · injection hq with he₁ he₂
          subst he₁
          have hEn : entryNamed d fs = some (.file d c) :=
            entryNamed_of_mem fs hwf (.file d c) hm
          refine ⟨⟨c, by rw [lookupFile_single, hEn]⟩, ?_, ?_⟩
          · rw [lastName_single]; exact h1
          · rw [pathStr_single]; exact h2
        · injection hq with he₁ he₂
          exact absurd he₂.symm (orphanScan_ne_nil ext _ ch q₃ hmem)
      · rintro ⟨⟨c, hc⟩, h1, h2⟩
        rw [lookupFile_single] at hc
        left
        cases hEn : entryNamed d fs with
        | none => rw [hEn] at hc; cases hc
        | some e =>
          cases e with
          | dir n₀ ch => rw [hEn] at hc; cases hc
          | file n₀ c₀ =>
            rw [hEn] at hc
            cases hc
            have hn₀ : n₀ = d := by
              have := entryNamed_name d fs (.file n₀ c) hEn
              simpa [entryName] using this
            subst hn₀
            exact ⟨n₀, c, rfl, mem_of_entryNamed n₀ fs _ hEn,
              by rw [lastName_single] at h1; exact h1,
              by rw [pathStr_single] at h2; exact h2⟩
    | cons a r =>
      rw [mem_orphanScan]
      constructor
      · rintro (⟨n, c, hq, hm, h1, h2⟩ | ⟨d₀, ch, q₃, hq, hm, hmem⟩)
        · injection hq with he₁ he₂
          cases he₂
        · injection hq with he₁ he₂
          subst he₁
          subst he₂
          have hEn : entryNamed d fs = some (.dir d ch) :=
            entryNamed_of_mem fs hwf (.dir d ch) hm
          have hwfch : wf ch = true := wf_child d fs hwf d ch hEn
          obtain ⟨⟨c, hc⟩, h1, h2⟩ :=
            (ih (pre ++ "/" ++ d) ch hwfch).mp hmem
          refine ⟨⟨c, by rw [lookupFile_pair, hEn]; exact hc⟩, ?_, ?_⟩
          · rw [lastName_cons d (a :: r) (by simp)]; exact h1
          · rw [pathStr_pair]; exact h2
      · rintro ⟨⟨c, hc⟩, h1, h2⟩
        rw [lookupFile_pair] at hc
        cases hEn : entryNamed d fs with
        | none => rw [hEn] at hc; cases hc
        | some e =>
          cases e with
          | file n₀ c₀ => rw [hEn] at hc; cases hc
          | dir n₀ ch =>
            rw [hEn] at hc
            have hn₀ : n₀ = d := by
              have := entryNamed_name d fs (.dir n₀ ch) hEn
              simpa [entryName] using this
            subst hn₀
            have hwfch : wf ch = true := wf_child n₀ fs hwf n₀ ch hEn
            right
            refine ⟨n₀, ch, a :: r, rfl, mem_of_entryNamed n₀ fs _ hEn, ?_⟩
            refine (ih (pre ++ "/" ++ n₀) ch hwfch).mpr ⟨⟨c, hc⟩, ?_, ?_⟩
            · rw [lastName_cons n₀ (a :: r) (by simp)] at h1; exact h1
            · rw [pathStr_pair] at h2; exact h2

/-- The characterization behind C5 on a tree nothing mutates: a path is
yielded by `find_orphaned_files` exactly when it leads to a regular file
whose name ends in `.gz`, whose path string with the trailing three
characters stripped carries a tracked extension, and whose stripped path
does not exist. -/
theorem mem_find_orphaned_iff (ext : List String) (q : FPath)
    (pre : String) (fs : FS) (hwf : wf fs = true) :
    q ∈ find_orphaned_files ext pre fs ↔
      (∃ c, lookupFile fs q = some c) ∧
      strEndsWith (lastName q) ".gz" = true ∧
      get_extension (strDropRight (pathStr pre q) 3) ∈ ext ∧
      existsPath fs (stripGzPath q) = false := by
  rw [find_orphaned_files, List.mem_filter,
    mem_orphanScan_path ext q pre fs hwf]
  simp only [Bool.not_eq_true']
  constructor
  · rintro ⟨⟨h1, h2, h3⟩, h4⟩
    exact ⟨h1, h2, h3, h4⟩
  · rintro ⟨h1, h2, h3, h4⟩
    exact ⟨⟨h1, h2, h3⟩, h4⟩


theorem compress_idempotent_wf (be : GzipBackend) (H : Bytes → Bytes)
    (fs : FS) (p : FPath) (level : Nat) (force : Bool) (r : Nat) (fs₂ : FS)
    (hok : compress_idempotent be H fs p level force = .ok (r, fs₂))
    (hwf : wf fs = true) : wf fs₂ = true := by
  rw [compress_idempotent] at hok
  by_cases hEx : existsPath fs (appendGz p) = true
  · rw [hEx] at hok
    simp only [if_true] at hok
    cases force with
    | true =>
      simp only [if_true] at hok
      cases hcp : compress_path be fs p level DEFAULT_BLOCK_SIZE with
      | error e => rw [hcp] at hok; cases hok
      | ok fw =>
        rw [hcp] at hok
        cases hok
        obtain ⟨c, w, -, -, hfs, -⟩ :=
          compress_path_ok_elim be fs p level DEFAULT_BLOCK_SIZE fw hcp
        rw [hfs]
        exact wf_writeFile _ _ fs hwf
    | false =>
      simp only [Bool.false_eq_true, if_false] at hok
      cases hh₁ : hashPath be H fs p DEFAULT_BLOCK_SIZE with
      | none => rw [hh₁] at hok; dsimp only at hok; cases hok
      | some d₁ =>
        cases hh₂ : hashPath be H fs (appendGz p) DEFAULT_BLOCK_SIZE with
        | none => rw [hh₁, hh₂] at hok; dsimp only at hok; cases hok
        | some d₂ =>
          rw [hh₁, hh₂] at hok
          dsimp only at hok
          by_cases heq : d₁ = d₂
          · rw [if_pos heq] at hok
            cases hok
            exact hwf
          · rw [if_neg heq] at hok
            cases hcp : compress_path be fs p level DEFAULT_BLOCK_SIZE with
            | error e => rw [hcp] at hok; cases hok
            | ok fw =>
              rw [hcp] at hok
              cases hok
              obtain ⟨c, w, -, -, hfs, -⟩ :=
                compress_path_ok_elim be fs p level DEFAULT_BLOCK_SIZE fw hcp
              rw [hfs]
              exact wf_writeFile _ _ fs hwf
  · rw [Bool.not_eq_true] at hEx
    rw [hEx] at hok
    simp only [Bool.false_eq_true, if_false] at hok
    cases hcp : compress_path be fs p level DEFAULT_BLOCK_SIZE with
    | error e => rw [hcp] at hok; cases hok
    | ok fw =>
      rw [hcp] at hok
      cases hok
      obtain ⟨c, w, -, -, hfs, -⟩ :=
        compress_path_ok_elim be fs p level DEFAULT_BLOCK_SIZE fw hcp
      rw [hfs]
      exact wf_writeFile _ _ fs hwf

theorem runCompress_wf (be : GzipBackend) (H : Bytes → Bytes)
    (level : Nat) (force : Bool) :
    ∀ (todo : List FPath) (fs : FS) (acc r : GzipStaticResult) (fs₂ : FS),
      runCompress be H level force todo fs acc = .ok (r, fs₂) →
      wf fs = true → wf fs₂ = true := by
  intro todo
  induction todo with
  | nil =>
    intro fs acc r fs₂ hok hwf
    rw [runCompress] at hok
    cases hok
    exact hwf
  | cons p ps ih =>
    intro fs acc r fs₂ hok hwf
    rw [runCompress] at hok
    cases hci : compress_idempotent be H fs p level force with
    | error e => rw [hci] at hok; cases hok
    | ok rf =>
      obtain ⟨r₀, fs₁⟩ := rf
      rw [hci] at hok
      dsimp only at hok
      exact ih fs₁ (bump acc r₀) r fs₂ hok
        (compress_idempotent_wf be H fs p level force r₀ fs₁ hci hwf)

/-- C5: `find_orphaned_files` yields exactly the regular files whose name
ends in `.gz`, whose path with the trailing `.gz` stripped carries an
extension in the set, and whose stripped path does not exist (so a
`data.tar.gz` is never reported when `.tar` is untracked); and a
`gzip_static` run with `remove_orphans = true` deletes each such orphan
and increments the deleted counter by exactly one per deletion — the
counter grows by the number of candidate `.gz` files the orphan pass
removed (the generator's existence checks are interleaved with the
deletions, so deleting one orphan may orphan a later candidate). -/
theorem find_orphaned_files_spec :
    (∀ (extensions : List String) (pre : String) (fs : FS),
      wf fs = true → ∀ q : FPath,
      (q ∈ find_orphaned_files extensions pre fs ↔
        (∃ c, lookupFile fs q = some c) ∧
        strEndsWith (lastName q) ".gz" = true ∧
        get_extension (strDropRight (pathStr pre q) 3) ∈ extensions ∧
        existsPath fs (stripGzPath q) = false)) ∧
    (∀ (be : GzipBackend) (H : Bytes → Bytes) (fs : FS)
      (extensions : List String) (level : Nat) (force : Bool)
      (pre : String) (r : GzipStaticResult) (fs₂ : FS), wf fs = true →
      gzip_static be H fs extensions level force true pre = .ok (r, fs₂) →
      ∃ (r₁ : GzipStaticResult) (fs₁ : FS),
        runCompress be H level force (find_static_files extensions fs) fs
          ⟨0, 0, 0, 0⟩ = .ok (r₁, fs₁) ∧
        (∀ q ∈ find_orphaned_files extensions pre fs₁,
          lookupFile fs₂ q = none) ∧
        (∀ q ∈ orphanScan extensions pre fs₁,
          ∃ c, lookupFile fs₁ q = some c) ∧
        r.deleted = r₁.deleted +
          ((orphanScan extensions pre fs₁).filter
            (fun q => (lookupFile fs₂ q).isNone)).length) := by
  constructor
  · intro extensions pre fs hwf q
    exact mem_find_orphaned_iff extensions q pre fs hwf
  · intro be H fs extensions level force pre r fs₂ hwf hok
    rw [gzip_static] at hok
    cases hrc : runCompress be H level force
        (find_static_files extensions fs) fs ⟨0, 0, 0, 0⟩ with
    | error e => rw [hrc] at hok; cases hok
    | ok rf =>
      obtain ⟨r₁, fs₁⟩ := rf
      rw [hrc] at hok
      dsimp only at hok
      simp only [if_true] at hok
      cases hok
      have hwf₁ : wf fs₁ = true := runCompress_wf be H level force
        (find_static_files extensions fs) fs ⟨0, 0, 0, 0⟩ r₁ fs₁ hrc hwf
      have hpres : ∀ q ∈ orphanScan extensions pre fs₁,
          ∃ c, lookupFile fs₁ q = some c := fun q hq =>
        ((mem_orphanScan_path extensions q pre fs₁ hwf₁).mp hq).1
      refine ⟨r₁, fs₁, rfl, ?_, hpres, ?_⟩
      · intro q hq
        rw [find_orphaned_files, List.mem_filter] at hq
        obtain ⟨hq₁, hq₂⟩ := hq
        simp only [Bool.not_eq_true'] at hq₂
        exact removeOrphansRun_deletes_orphan
          (orphanScan extensions pre fs₁) fs₁ r₁.deleted q hwf₁ hq₁ hq₂
      · dsimp only
        exact removeOrphansRun_count (orphanScan extensions pre fs₁) fs₁
          r₁.deleted hwf₁ (orphanScan_nodup extensions pre fs₁ hwf₁) hpres


/-! ## Witnesses: the claim theorems applied at concrete inputs -/

theorem get_extension_spec_witness :
    get_extension "archive.txt" = ".txt" := by
  have h := ((get_extension_spec "archive.txt").1 7 (by decide)).2
    (by decide) (by decide)
  rw [h]
  rfl

theorem hash_file_contents_spec_witness :
    hash_file_contents idGzip.gunzip (fun b => b) "page.html.gz" [5, 6] 64 =
      [5, 6] := by
  have h := (hash_file_contents_spec idGzip (fun b => b) "page.html.gz"
    [5, 6] 64 (by decide)).1
  rw [h]
  rfl

theorem find_static_files_never_gz_witness :
    (["page.html"] ∈ find_static_files [".html", ".gz", ".tar"]
      [Entry.file "archive.tar.gz" [1], Entry.file "page.html" [2]]) ∧
    strEndsWith (lastName ["page.html"]) ".gz" = false := by
  have hmem : ["page.html"] ∈ find_static_files [".html", ".gz", ".tar"]
      [Entry.file "archive.tar.gz" [1], Entry.file "page.html" [2]] := by
    rw [find_static_files, find_static_files, find_static_files]
    decide
  exact ⟨hmem,
    find_static_files_never_gz [".html", ".gz", ".tar"] _ _ hmem⟩

theorem compress_path_no_zopfli_witness :
    compress_path noZopfli [] ["site.html"] 11 DEFAULT_BLOCK_SIZE =
      .error .moduleNotFound :=
  compress_path_no_zopfli noZopfli [] ["site.html"] DEFAULT_BLOCK_SIZE rfl

theorem compress_path_zopfli_spec_witness :
    compress_path tagGzip [Entry.file "a.html" [7]] ["a.html"] 11
      DEFAULT_BLOCK_SIZE =
      .ok (writeFile [Entry.file "a.html" [7]] (appendGz ["a.html"])
        ((fun b => 1 :: b) [7]), false) :=
  (compress_path_zopfli_spec tagGzip [Entry.file "a.html" [7]] ["a.html"]
    DEFAULT_BLOCK_SIZE [7] (fun b => 1 :: b) rfl
    (by rw [lookupFile_single]; rfl) (by decide)
    (Or.inl (by
      rw [show appendGz ["a.html"] = ["a.html.gz"] by simp [appendGz],
        existsPath_single]
      rfl))).1 (by decide)

theorem compress_path_roundtrip_witness :
    ∃ fw : FS × Bool,
      compress_path idGzip [Entry.file "t.html" testData] ["t.html"] 11
        DEFAULT_BLOCK_SIZE = .ok fw ∧
      ∃ w, lookupFile fw.1 (appendGz ["t.html"]) = some w ∧
        idGzip.gunzip w = testData :=
  compress_path_roundtrip idGzip [Entry.file "t.html" testData] ["t.html"]
    DEFAULT_BLOCK_SIZE 11 (by simp) rfl
    (by rw [lookupFile_single]; rfl) (by decide)
    (Or.inl (by
      rw [show appendGz ["t.html"] = ["t.html.gz"] by simp [appendGz]]
      rw [existsPath_single]
      rfl))

theorem compress_idempotent_spec_witness :
    compress_idempotent idGzip (fun b => b)
      [Entry.file "b.html" [2], Entry.file "b.html.gz" [2]] ["b.html"] 9
      false =
      .ok (SKIPPED,
        [Entry.file "b.html" [2], Entry.file "b.html.gz" [2]]) :=
  (compress_idempotent_spec idGzip (fun b => b)
    [Entry.file "b.html" [2], Entry.file "b.html.gz" [2]] ["b.html"] [2] 9
    (by rw [lookupFile_single]; rfl) (by decide) (by simp)
    (by intro h; exact absurd h (by decide))).2.2.1 [2]
    (by
      rw [show appendGz ["b.html"] = ["b.html.gz"] by simp [appendGz]]
      rw [lookupFile_single]
      rfl)
    rfl

theorem gzip_static_counts_witness :
    ((⟨1, 0, 0, 0⟩ : GzipStaticResult).created +
      (⟨1, 0, 0, 0⟩ : GzipStaticResult).updated +
      (⟨1, 0, 0, 0⟩ : GzipStaticResult).skipped =
      (find_static_files [".html"] [Entry.file "a.html" [1]]).length) ∧
    (false = false → (⟨1, 0, 0, 0⟩ : GzipStaticResult).deleted = 0) ∧
    (∀ (fs₃ : FS) (p : FPath) (r₀ : Nat) (fs₄ : FS),
      compress_idempotent idGzip (fun b => b) fs₃ p 9 false =
        .ok (r₀, fs₄) → r₀ ≠ DELETED) :=
  gzip_static_counts idGzip (fun b => b) [Entry.file "a.html" [1]]
    [".html"] 9 false false "web" ⟨1, 0, 0, 0⟩
    [Entry.file "a.html" [1], Entry.file "a.html.gz" [1]]
    (by
      simp [gzip_static, find_static_files, runCompress,
        compress_idempotent, compress_path, existsPath, appendGz,
        writable, lookupFile, entryNamed, entryName, writeFile, writeIn,
        bump, joinBlocks_chunksOf, DEFAULT_BLOCK_SIZE, strEndsWith, sfxOf,
        get_extension, lastIdxOf, COMPRESSED, idGzip]
      rfl)

theorem gzip_static_idempotent_witness :
    gzip_static idGzip (fun b => b)
      [Entry.file "a.html" [1], Entry.file "a.html.gz" [1]] [".html"] 9
      false false "web" =
      .ok (⟨0, 0,
          (find_static_files [".html"] [Entry.file "a.html" [1]]).length,
          0⟩,
        [Entry.file "a.html" [1], Entry.file "a.html.gz" [1]]) :=
  gzip_static_idempotent idGzip (fun b => b) [Entry.file "a.html" [1]]
    [".html"] 9 "web" ⟨1, 0, 0, 0⟩
    [Entry.file "a.html" [1], Entry.file "a.html.gz" [1]]
    (by simp only [wf]; decide)
    (by
      simp [gzip_static, find_static_files, runCompress,
        compress_idempotent, compress_path, existsPath, appendGz,
        writable, lookupFile, entryNamed, entryName, writeFile, writeIn,
        bump, joinBlocks_chunksOf, DEFAULT_BLOCK_SIZE, strEndsWith, sfxOf,
        get_extension, lastIdxOf, COMPRESSED, idGzip]
      rfl)

theorem find_orphaned_files_spec_witness :
    (["page.html.gz"] ∈ find_orphaned_files [".html"] "web"
      [Entry.file "page.html.gz" [3], Entry.file "data.tar.gz" [4]]) ∧
    (["data.tar.gz"] ∉ find_orphaned_files [".html"] "web"
      [Entry.file "page.html.gz" [3], Entry.file "data.tar.gz" [4]]) ∧
    (∃ (r₁ : GzipStaticResult) (fs₁ : FS),
      runCompress idGzip (fun b => b) 9 false
        (find_static_files [".html"] [Entry.file "page.html.gz" [3]])
        [Entry.file "page.html.gz" [3]] ⟨0, 0, 0, 0⟩ = .ok (r₁, fs₁) ∧
      (∀ q ∈ find_orphaned_files [".html"] "web" fs₁,
        lookupFile ([] : FS) q = none) ∧
      (∀ q ∈ orphanScan [".html"] "web" fs₁,
        ∃ c, lookupFile fs₁ q = some c) ∧
      (⟨0, 0, 0, 1⟩ : GzipStaticResult).deleted =
        r₁.deleted + ((orphanScan [".html"] "web" fs₁).filter
          (fun q => (lookupFile ([] : FS) q).isNone)).length) := by
  refine ⟨?_, ?_, ?_⟩
  · exact (find_orphaned_files_spec.1 [".html"] "web"
      [Entry.file "page.html.gz" [3], Entry.file "data.tar.gz" [4]]
      (by simp only [wf]; decide) ["page.html.gz"]).mpr
      ⟨⟨[3], by rw [lookupFile_single]; rfl⟩, by decide, by decide,
        by
          rw [stripGzPath_single, if_neg (by decide), existsPath_single]
          rfl⟩
  · intro hmem
    have h := (find_orphaned_files_spec.1 [".html"] "web"
      [Entry.file "page.html.gz" [3], Entry.file "data.tar.gz" [4]]
      (by simp only [wf]; decide) ["data.tar.gz"]).mp hmem
    have h2 := h.2.2.1
    rw [pathStr_single] at h2
    exact absurd h2 (by decide)
  · exact find_orphaned_files_spec.2 idGzip (fun b => b)
      [Entry.file "page.html.gz" [3]] [".html"] 9 false "web"
      ⟨0, 0, 0, 1⟩ [] (by simp only [wf]; decide)
      (by
        simp [gzip_static, find_static_files, runCompress,
          orphanScan, removeOrphansRun, stripGzPath, existsPath,
          removeFile, removeIn, entryNamed, entryName, strEndsWith, sfxOf,
          strDropRight, get_extension, lastIdxOf])


end GzipStatic
